import Mathlib

set_option maxRecDepth 100000
set_option maxHeartbeats 4000000

/-!
# Verification of the bentoo capacity-planning helpers

This file gives a shallow embedding, in Lean 4 over exact rational
arithmetic, of the capacity-planning engine of the bentoo repository
(`bentoo/common/helpers.py` and its revision `bentoo/common/helpers2.py`):

* `sizeToFloat` / `floatToSize` — the byte-size string parser and formatter;
* `make_process_grid` — balanced integer factorization of a node count;
* `StructuredGridModelResizer` / `UnstructuredGridModelResizer` — the two
  capacity resizers, embedded as `Resizer.resize` / `Resizer.next`;
* `OmniModelResizer` — the catalog combinator (`omniResize` / `omniNext`).

Python floats are modelled by `ℚ` (exact arithmetic; the specification's
numeric claims are all stated "up to floating rounding"), Python ints by
`ℕ`, exceptions and `assert` by `Option`/`Except`.  The two unbounded
`while` loops of `make_process_grid` are modelled with explicit fuel that
provably dominates their iteration count.  Where a result dictionary stores
a formatted size string, the embedding additionally records the exact
numeric value the source computed just before formatting (field `mem_raw`),
mirroring the source's local variable of the same meaning.
-/

namespace Bentoo

/-! ## SizeUnit: `sizeToFloat` and `floatToSize`

`sizeToFloat` applies the anchored regex
`(\d+(\.\d+)?([eE][+-]?\d+)?)([kmgKMG](i?[Bb])?)?` and multiplies the
parsed number by the unit of the (lower-cased) first unit letter.  The
embedding splits the work into a purely syntactic scanner `scanSize`
(characters to numerator/denominator data, so that concrete instances
reduce in the kernel) and the rational evaluation `partsVal`; their
composition is the source function. -/

/-- Numeric value of an ASCII digit character. -/
def digitVal (c : Char) : ℕ := c.toNat - 48

/-- Value of a (most-significant-first) digit run, as converted by
`float()` on the integral, fractional or exponent part of the match. -/
def digitsToNat (ds : List Char) : ℕ := ds.foldl (fun a c => 10 * a + digitVal c) 0

/-- The unit letters `[kmgKMG]` of the size regex. -/
def isUnitChar (c : Char) : Bool :=
  c = 'k' || c = 'm' || c = 'g' || c = 'K' || c = 'M' || c = 'G'

/-- The syntactic pieces of a size literal: integral part, fraction digits
(value and count), signed exponent, and the unit letter (`'b'` when the
unit group is absent). -/
structure SizeParts where
  ip : ℕ
  fn : ℕ
  fl : ℕ
  ex : ℤ
  u : Char
deriving DecidableEq, Repr

/-- Scan the fraction group `(\.\d+)?`: backtrack (leaving the input
untouched) unless a dot followed by at least one digit is present. -/
def scanFrac (cs : List Char) : (ℕ × ℕ) × List Char :=
  match cs with
  | '.' :: cs1 =>
    let q := cs1.span Char.isDigit
    if q.1.isEmpty then ((0, 0), cs) else ((digitsToNat q.1, q.1.length), q.2)
  | _ => ((0, 0), cs)

/-- Scan the exponent group `([eE][+-]?\d+)?`, backtracking when absent. -/
def scanExp (cs : List Char) : ℤ × List Char :=
  match cs with
  | c :: cs1 =>
    if c = 'e' ∨ c = 'E' then
      match cs1 with
      | s :: cs2 =>
        if s = '+' ∨ s = '-' then
          let q := cs2.span Char.isDigit
          if q.1.isEmpty then (0, cs)
          else (if s = '-' then -(digitsToNat q.1 : ℤ) else (digitsToNat q.1 : ℤ), q.2)
        else
          let q := cs1.span Char.isDigit
          if q.1.isEmpty then (0, cs) else ((digitsToNat q.1 : ℤ), q.2)
      | [] => (0, cs)
    else (0, cs)
  | [] => (0, cs)

/-- The unit letter: first character of the unit group when it matches,
`'b'` otherwise (the regex allows trailing unmatched characters). -/
def scanUnit (cs : List Char) : Char :=
  match cs with
  | c :: _ => if isUnitChar c then c else 'b'
  | [] => 'b'

/-- Full scanner for the size regex; `none` models the `RuntimeError`
raised when the string does not start with a digit. -/
def scanSize (cs : List Char) : Option SizeParts :=
  let p := cs.span Char.isDigit
  if p.1.isEmpty then none
  else
    let f := scanFrac p.2
    let e := scanExp f.2
    some ⟨digitsToNat p.1, f.1.1, f.1.2, e.1, scanUnit e.2⟩

/-- `unitValue` dictionary of the source: `{b:1, k:1024, m:1024², g:1024³}`,
keyed on the lower-cased unit letter. -/
def unitValue (c : Char) : ℚ :=
  if c = 'k' ∨ c = 'K' then 1024
  else if c = 'm' ∨ c = 'M' then 1024 ^ 2
  else if c = 'g' ∨ c = 'G' then 1024 ^ 3
  else 1

/-- Integer power of ten as a rational (`10.0 ** e` of the float parse). -/
def qpow10 (e : ℤ) : ℚ :=
  if 0 ≤ e then ((10 ^ e.toNat : ℕ) : ℚ) else 1 / ((10 ^ (-e).toNat : ℕ) : ℚ)

/-- Rational value of the scanned pieces: `<number> * 10^exp * unit`. -/
def partsVal (p : SizeParts) : ℚ :=
  ((p.ip : ℚ) + (p.fn : ℚ) / ((10 ^ p.fl : ℕ) : ℚ)) * qpow10 p.ex * unitValue p.u

/-- `sizeToFloat` on the character list of the input string. -/
def sizeToFloatChars (cs : List Char) : Option ℚ := (scanSize cs).map partsVal

/-- `sizeToFloat` of the source, on strings.  The numeric (non-string)
input case of the source is `float(s)`, the identity on our exact values,
and needs no model. -/
def sizeToFloat (s : String) : Option ℚ := sizeToFloatChars s.data

/-- Round to the nearest integer, ties to even: the rounding used by
Python's one-fractional-digit float formatting. -/
def roundHalfEven (x : ℚ) : ℤ :=
  let f := ⌊x⌋
  let r := x - f
  if r < 1 / 2 then f
  else if 1 / 2 < r then f + 1
  else if 2 ∣ f then f else f + 1

/-- ASCII digit character of `d < 10`. -/
def digitChar (d : ℕ) : Char := Char.ofNat (48 + d)

/-- Decimal digit characters of `k`, most significant first; `fuel` bounds
the recursion depth and any `fuel > k` is sufficient. -/
def natChars : ℕ → ℕ → List Char
  | 0, _ => []
  | fuel + 1, k => if k < 10 then [digitChar k] else natChars fuel (k / 10) ++ [digitChar (k % 10)]

/-- Decimal digit characters of `k`. -/
def natToChars (k : ℕ) : List Char := natChars (k + 1) k

/-- Characters of the one-fractional-digit decimal rendering of the
integer `r` of tenths. -/
def render1 (r : ℤ) : List Char :=
  let n := r.natAbs
  let base := natToChars (n / 10) ++ '.' :: [digitChar (n % 10)]
  if r < 0 then '-' :: base else base

/-- Python's one-fractional-digit rendering of a float (format spec
`.1f`), on the exact rational value. -/
def fmt1 (q : ℚ) : String := ⟨render1 (roundHalfEven (10 * q))⟩

/-- `floatToSize` of the source: choose the largest unit keeping the scaled
value below 1024 (falling back to `G`), render with one fractional digit.
The non-numeric pass-through case of the source is the identity on already
formatted strings and needs no model. -/
def floatToSize (f : ℚ) : String :=
  if f < 1024 then fmt1 f
  else if f < 1024 * 1024 then fmt1 (f / 1024) ++ "K"
  else if f < 1024 * 1024 * 1024 then fmt1 (f / 1024 ^ 2) ++ "M"
  else fmt1 (f / 1024 ^ 3) ++ "G"

/-! ## `make_process_grid`

Balanced integer factorization (identical in `helpers.py` and
`helpers2.py`).  The two `while` loops are modelled with explicit fuel:

* the inner distribution loop divides `n1` by `v ≥ 2` each iteration, so
  any `fuel ≥ n1` dominates its iteration count;
* every rebalancing step strictly decreases the sum of squares of the
  slots (moving a factor `v` from the maximum slot `a` to the minimum slot
  `b` under `a > b*v` replaces `a² + b²` by `(a/v)² + (b*v)²`, smaller by
  `(1 - v⁻²)(a² - b²v²) > 0`), so `sumSq + 1` fuel dominates.

The guards `2 ≤ v ∧ 0 < n1` of `distribute_one` hold at every call the
source makes (its prime lists contain only values `≥ 2` once `n ≥ 3`, and
`n1 ≥ 1` throughout); they only serve to make the fuel bound obvious. -/

/-- `is_prime` of the source: trial division over `[2, x//2]`; by design
it also returns `True` for `x = 1` (and, vacuously, for `x ≤ 1`). -/
def is_prime (x : ℕ) : Bool :=
  x = 1 || (List.range' 2 (x / 2 - 1)).all (fun i => ¬ x % i = 0)

/-- `prime_factors` of the source.  The source scans `v ∈ [2, x//2]` and
keeps primes with `n % v == 0`, where `n` is the enclosing function's
argument; it is only ever called with `x = n`, which this model fixes. -/
def prime_factors (n : ℕ) : List ℕ :=
  if is_prime n then [n]
  else (List.range' 2 (n / 2 - 1)).filter (fun v => is_prime v && n % v = 0)

/-- The scan of `min_index`: Python's manual fold over `enumerate(l)`,
keeping the first index of the minimum. -/
def min_scan : List ℕ → ℕ → ℕ × ℕ → ℕ × ℕ
  | [], _, best => best
  | x :: xs, idx, best => min_scan xs (idx + 1) (if x < best.2 then (idx, x) else best)

/-- `min_index` of the source: first index of the minimum and its value
(the source indexes `l[0]`, so it requires a nonempty list). -/
def min_index (l : List ℕ) : ℕ × ℕ := min_scan l 0 (0, l.headD 0)

/-- The scan of `max_index`, keeping the first index of the maximum. -/
def max_scan : List ℕ → ℕ → ℕ × ℕ → ℕ × ℕ
  | [], _, best => best
  | x :: xs, idx, best => max_scan xs (idx + 1) (if best.2 < x then (idx, x) else best)

/-- `max_index` of the source: first index of the maximum and its value. -/
def max_index (l : List ℕ) : ℕ × ℕ := max_scan l 0 (0, l.headD 0)

/-- One round of the round-robin distribution loop
(`while n1 % v == 0: result[i % dim] *= v; i += 1; n1 //= v`). -/
def distribute_one (dim v : ℕ) : ℕ → ℕ → ℕ → List ℕ → ℕ × ℕ × List ℕ
  | 0, n1, i, res => (n1, i, res)
  | fuel + 1, n1, i, res =>
    if 2 ≤ v ∧ 0 < n1 ∧ n1 % v = 0 then
      distribute_one dim v fuel (n1 / v) (i + 1) (res.set (i % dim) (res.getD (i % dim) 0 * v))
    else (n1, i, res)

/-- The distribution loop over all primes (`for v in all_primes: ...`). -/
def distribute_all (dim : ℕ) : List ℕ → ℕ → ℕ → List ℕ → ℕ × ℕ × List ℕ
  | [], n1, i, res => (n1, i, res)
  | v :: vs, n1, i, res =>
    let r := distribute_one dim v n1 n1 i res
    distribute_all dim vs r.1 r.2.1 r.2.2

/-- Sum of squares of the slots — the strictly decreasing measure of the
rebalancing loop, used as its fuel. -/
def sumSq (l : List ℕ) : ℕ := (l.map (fun x => x * x)).sum

/-- The inner fixed-point loop of the rebalancing pass: while the maximum
slot exceeds `v` times the minimum slot and is divisible by `v`, move one
factor of `v` from the maximum to the minimum slot. -/
def balance_one (v : ℕ) : ℕ → List ℕ → List ℕ
  | 0, res => res
  | fuel + 1, res =>
    let ma := max_index res
    let mi := min_index res
    if mi.2 * v < ma.2 ∧ ma.2 % v = 0 then
      let res1 := res.set ma.1 (res.getD ma.1 0 / v)
      let res2 := res1.set mi.1 (res1.getD mi.1 0 * v)
      balance_one v fuel res2
    else res

/-- Python's `sorted(l, reverse=True)`: stable descending sort. -/
def sortDesc (l : List ℕ) : List ℕ := List.insertionSort (· ≥ ·) l

/-- `make_process_grid` of the source.  The source's trailing
`assert product(result) == n` is not part of the returned value; theorem
`make_process_grid_spec` proves the asserted property (so the assertion
never fires) for every `n ≥ 1, dim ≥ 1`. -/
def make_process_grid (n : ℕ) (dim : ℕ) : List ℕ :=
  let all_primes := prime_factors n
  let result0 := List.replicate dim 1
  if n = 1 then result0
  else if n = 2 then result0.set 0 n
  else
    let d := distribute_all dim all_primes n 0 result0
    let r1 := sortDesc d.2.2
    let r2 := all_primes.foldl (fun r v => balance_one v (sumSq r + 1) r) r1
    sortDesc r2

/-! ## Resize results

All resize/next operations of the source return Python dicts.  `OResult`
models them with one record: the common fields `nnodes`/`mem_per_node`,
the structured-only fields `grid`/`index_`, the unstructured-only field
`nrefines` (absent fields are `none`), and the provenance key
`resizer_id_` the catalog stuffs into the dict.  `mem_raw` additionally
records the exact rational the source computed just before formatting the
`mem_per_node` string (the source's `new_mem_per_node` and friends). -/

structure OResult where
  nnodes : ℕ
  mem_per_node : String
  mem_raw : ℚ := 0
  nrefines : Option ℕ := none
  grid : Option (List ℕ) := none
  index_ : Option ℕ := none
  resizer_id_ : Option ℕ := none
deriving DecidableEq, Repr

/-- `int(math.floor(q ** (1.0 / d)))` of the source, exactly: the largest
`k` with `k ^ d ≤ q` (and `0` when no such `k ≤ ⌊q⌋` exists, in particular
for `q < 1`).  Any integer root is at most `⌊q⌋` once `q ≥ 1`, so the
scanned range suffices; `iroot_le` and `iroot_succ_gt` prove the
floor-root characterization. -/
def iroot (d : ℕ) (q : ℚ) : ℕ :=
  (List.range (⌊q⌋₊ + 1)).foldl (fun (acc k : ℕ) => if (k : ℚ) ^ d ≤ q then k else acc) 0

/-- The two resizer classes.  Construction applies `sizeToFloat` to the
model's `total_mem`, so the embedded field is already numeric; a
`StructuredGridModelResizer`'s `dim` is `grid.length` and an
`UnstructuredGridModelResizer`'s `stride` is `2 ^ dim`. -/
inductive Resizer where
  | structured (grid : List ℕ) (total_mem : ℚ)
  | unstructured (dim : ℕ) (total_mem : ℚ)
deriving DecidableEq

/-- `resize` of both resizer classes, after the `sizeToFloat` conversion
of the `mem_per_node` argument (claims feed the parsed value in).

For the structured class this is total.  For the unstructured class the
enlargement branch contains `assert real_mem_per_node > mem_per_node`
(after bumping the refinement count); `none` models that
`AssertionError`.  `unstructured_resize_total` proves the assertion never
fires for `dim ≥ 1`, `total_mem > 0`, `mem_per_node > 0`, `nnodes ≥ 1`.

Exact modelling of the float idioms, valid on the source's domain:
`int(math.floor(math.log(r, stride)))` for `r > 1` is
`Nat.log stride ⌊r⌋₊`; `2 ** int(math.ceil(math.log2(n)))` for `n ≥ 1` is
`2 ^ Nat.clog 2 n`; `int(math.ceil(q))` for `q ≥ 0` is `⌈q⌉₊`. -/
def Resizer.resize : Resizer → ℚ → ℕ → Option OResult
  | .structured grid total_mem, mem_per_node, nnodes =>
    let dim := grid.length
    let ncells : ℕ := grid.prod
    let bytes_per_cell := total_mem / (ncells : ℚ)
    let new_ncells := mem_per_node / bytes_per_cell
    let nx := iroot dim new_ncells
    let base_grid := List.replicate dim nx
    let new_mem_per_node := bytes_per_cell * ((base_grid.prod : ℕ) : ℚ)
    let proc_grid := make_process_grid nnodes dim
    some { nnodes := nnodes
           grid := some (List.zipWith (· * ·) base_grid proc_grid)
           mem_per_node := floatToSize new_mem_per_node
           mem_raw := new_mem_per_node
           index_ := some 0 }
  | .unstructured dim total_mem, mem_per_node, nnodes =>
    let stride := 2 ^ dim
    let total_mem_req := mem_per_node * (nnodes : ℚ)
    let rel := |2 * (total_mem_req - total_mem) / (total_mem + total_mem_req)|
    if rel < 1 / 100 ∨ (total_mem < total_mem_req ∧ rel < 25 / 100) then
      some { nnodes := nnodes
             mem_per_node := floatToSize (total_mem / (nnodes : ℚ))
             mem_raw := total_mem / (nnodes : ℚ)
             nrefines := some 0 }
    else if total_mem < total_mem_req then
      let rto := total_mem_req / total_mem
      let i := Nat.log stride ⌊rto⌋₊
      let real_mem := total_mem * ((stride ^ i : ℕ) : ℚ)
      let real_mem_per_node := real_mem / (nnodes : ℚ)
      if real_mem_per_node * 2 < mem_per_node then
        let i' := i + 1
        let real_mem' := total_mem * ((stride ^ i' : ℕ) : ℚ)
        let real_mem_per_node' := real_mem' / (nnodes : ℚ)
        if mem_per_node < real_mem_per_node' then
          let new_nnodes0 : ℕ := ⌈real_mem' / total_mem_req⌉₊ * nnodes
          let new_nnodes : ℕ := 2 ^ Nat.clog 2 new_nnodes0
          let new_mem_per_node := real_mem' / (new_nnodes : ℚ)
          some { nnodes := new_nnodes
                 mem_per_node := floatToSize new_mem_per_node
                 mem_raw := new_mem_per_node
                 nrefines := some i' }
        else none
      else
        some { nnodes := nnodes
               mem_per_node := floatToSize real_mem_per_node
               mem_raw := real_mem_per_node
               nrefines := some i }
    else
      let nnodes2 := ⌈total_mem / mem_per_node⌉₊
      let nnodes3 := 2 ^ Nat.clog 2 nnodes2
      some { nnodes := nnodes3
             mem_per_node := floatToSize (total_mem / (nnodes3 : ℚ))
             mem_raw := total_mem / (nnodes3 : ℚ)
             nrefines := some 0 }

/-- `next` of both resizer classes.  Both deep-copy the input and return a
new dict.  The structured variant doubles `nnodes`, doubles the grid axis
at the `index_` cursor and advances the cursor modulo `dim`; the
unstructured variant multiplies `nnodes` by `stride = 2 ^ dim` and
increments `nrefines`.  `none` models the `KeyError` a dict lacking the
class's fields would raise (the source would also raise `IndexError` for a
cursor out of range, where `List.set` is instead a no-op: theorem `C7`
assumes an in-range cursor, which `resize` always produces). -/
def Resizer.next : Resizer → OResult → Option OResult
  | .structured grid _, model =>
    match model.grid, model.index_ with
    | some g, some idx =>
      some { model with
             nnodes := model.nnodes * 2
             grid := some (g.set idx (g.getD idx 0 * 2))
             index_ := some ((idx + 1) % grid.length) }
    | _, _ => none
  | .unstructured dim _, model =>
    match model.nrefines with
    | some k =>
      some { model with nnodes := model.nnodes * 2 ^ dim, nrefines := some (k + 1) }
    | none => none

/-! ## `OmniModelResizer`

The catalog holds the non-resizable models (as literal
`{nnodes, mem_per_node}` records, their `resizer_id_` set to `None` at
construction) and one `Resizer` per resizable model.  The constructor's
`max_nnodes` argument is unused in the source and is dropped; the `tag`
bookkeeping field plays no role in `resize`/`next` and is dropped as well.
Exceptions of the source are modelled by `Except OErr`. -/

structure FixedModel where
  nnodes : ℕ
  mem_per_node : String
deriving DecidableEq, Repr

structure OmniModelResizer where
  fixed_models : List FixedModel
  resizers : List Resizer
deriving DecidableEq

/-- Error outcomes of the catalog:
`invalidSize` is `sizeToFloat`'s `RuntimeError`, `assertionFailed` a
Python `AssertionError`, `noCandidate` the `RuntimeError` of `resize`,
`exhausted` the `StopIteration` of `next`, `badIndex` an
`IndexError`/`KeyError`. -/
inductive OErr where
  | invalidSize
  | assertionFailed
  | noCandidate
  | exhausted
  | badIndex
deriving DecidableEq, Repr

/-- The catalog's view of a chosen fixed model (the deep copy the source
returns): `resizer_id_` is `None`; `mem_raw` records its parsed size. -/
def FixedModel.toOResult (fm : FixedModel) (raw : ℚ) : OResult :=
  { nnodes := fm.nnodes, mem_per_node := fm.mem_per_node, mem_raw := raw }

/-- The fixed-model pass of `OmniModelResizer.resize`: parse every fixed
model's size (a parse failure anywhere aborts the call, as in the source's
loop) and keep those with the exact node count and a size ratio in
`(0.8, 1]` of the request. -/
def collectFixedResize (req : ℚ) (nnodes : ℕ) : List FixedModel → Except OErr (List FixedModel)
  | [] => .ok []
  | fm :: rest =>
    match sizeToFloat fm.mem_per_node with
    | none => .error .invalidSize
    | some v =>
      (collectFixedResize req nnodes rest).map fun cs =>
        if fm.nnodes = nnodes ∧ 8 / 10 < v / req ∧ v / req ≤ 1 then fm :: cs else cs

/-- Python's `max(a :: l, key)`: the first element with the maximal key. -/
def maxByKey (key : α → ℚ) : α → List α → α
  | a, [] => a
  | a, x :: xs => maxByKey key (if key a < key x then x else a) xs

/-- Python's `min(a :: l, key)` on pre-computed keys: the first pair with
the minimal key (the source evaluates `key` on every element exactly
once, in list order, which `Except`-valued keys make explicit below). -/
def minByKeyPaired : α × ℚ → List (α × ℚ) → α
  | p, [] => p.1
  | p, x :: xs => minByKeyPaired (if x.2 < p.2 then x else p) xs

/-- The resizer pass of `OmniModelResizer.resize`: every resizer is asked
to resize and its result tagged with its index; an `AssertionError` inside
a resizer aborts the call. -/
def collectResizerCands (mem : ℚ) (nnodes : ℕ) (i : ℕ) :
    List Resizer → Except OErr (List OResult)
  | [] => .ok []
  | rz :: rest =>
    match rz.resize mem nnodes with
    | none => .error .assertionFailed
    | some m =>
      (collectResizerCands mem nnodes (i + 1) rest).map
        fun l => { m with resizer_id_ := some i } :: l

/-- The scoring function `deviation` of `OmniModelResizer.resize`, with
its `assert s1 >= 0` (the candidate may not exceed the request). -/
def deviation (req : ℚ) (nnodes : ℕ) (x : OResult) : Except OErr ℚ :=
  match sizeToFloat x.mem_per_node with
  | none => .error .invalidSize
  | some v =>
    let s1 := 1 - v / req
    if s1 < 0 then .error .assertionFailed
    else
      let s2 := 1 - |(x.nnodes : ℚ) - (nnodes : ℚ)| / ((x.nnodes : ℚ) + (nnodes : ℚ))
      .ok (4 / 10 * s1 + 6 / 10 * s2)

/-- `min(candidates, key=deviation)` evaluates the key once per element,
in list order; `computeDevs` makes that explicit, so that the `assert`
inside `deviation` aborts at the first violating candidate exactly as in
the source. -/
def computeDevs (req : ℚ) (nnodes : ℕ) : List OResult → Except OErr (List (OResult × ℚ))
  | [] => .ok []
  | x :: xs =>
    match deviation req nnodes x with
    | .error e => .error e
    | .ok d => (computeDevs req nnodes xs).map ((x, d) :: ·)

/-- `OmniModelResizer.resize`, after the `sizeToFloat` conversion of the
request: search the fixed models for an exact-`nnodes` match with size
ratio in `(0.8, 1]`, returning the best (largest-ratio) match; otherwise
score every resizer's result by `deviation` and return the minimum;
`noCandidate` when there is neither.  (A request of `0` would be a
`ZeroDivisionError` in the source; claims assume a positive request.) -/
def omniResize (om : OmniModelResizer) (mem_per_node_req : ℚ) (nnodes : ℕ) :
    Except OErr OResult :=
  match collectFixedResize mem_per_node_req nnodes om.fixed_models with
  | .error e => .error e
  | .ok (fm :: rest) =>
    let best := maxByKey (fun f => (sizeToFloat f.mem_per_node).getD 0 / mem_per_node_req) fm rest
    .ok (best.toOResult ((sizeToFloat best.mem_per_node).getD 0))
  | .ok [] =>
    match collectResizerCands mem_per_node_req nnodes 0 om.resizers with
    | .error e => .error e
    | .ok [] => .error .noCandidate
    | .ok (c :: cs) =>
      match computeDevs mem_per_node_req nnodes (c :: cs) with
      | .error e => .error e
      | .ok [] => .error .noCandidate
      | .ok (d :: ds) => .ok (minByKeyPaired d ds)

/-- The fixed-model pass of `OmniModelResizer.next`: keep fixed models
with strictly larger `nnodes` and size ratio in `(0.95, 1.05]` of the
current result. -/
def collectFixedNext (curr_mem : ℚ) (curr_n : ℕ) : List FixedModel → Except OErr (List FixedModel)
  | [] => .ok []
  | fm :: rest =>
    match sizeToFloat fm.mem_per_node with
    | none => .error .invalidSize
    | some v =>
      (collectFixedNext curr_mem curr_n rest).map fun cs =>
        if curr_n < fm.nnodes ∧ 95 / 100 < v / curr_mem ∧ v / curr_mem ≤ 105 / 100
        then fm :: cs else cs

/-- One resizer's probe sequence in `OmniModelResizer.next`: try the
resizer at `2, 4, 8` times the current node count, stopping at the first
result with strictly larger `nnodes` and size ratio within `[0.95, 1.05]`
of the current result; `ok none` when all three probes miss. -/
def probeOne (rz : Resizer) (i : ℕ) (curr_mem : ℚ) (curr_n : ℕ) :
    List ℕ → Except OErr (Option OResult)
  | [] => .ok none
  | k :: ks =>
    match rz.resize curr_mem (curr_n * k) with
    | none => .error .assertionFailed
    | some m =>
      match sizeToFloat m.mem_per_node with
      | none => .error .invalidSize
      | some v =>
        if curr_n < m.nnodes ∧ 95 / 100 ≤ v / curr_mem ∧ v / curr_mem ≤ 105 / 100
        then .ok (some { m with resizer_id_ := some i })
        else probeOne rz i curr_mem curr_n ks

/-- The probing pass of `OmniModelResizer.next` over all resizers. -/
def collectProbes (curr_mem : ℚ) (curr_n : ℕ) (i : ℕ) :
    List Resizer → Except OErr (List OResult)
  | [] => .ok []
  | rz :: rest =>
    match probeOne rz i curr_mem curr_n [2, 4, 8] with
    | .error e => .error e
    | .ok (some m) => (collectProbes curr_mem curr_n (i + 1) rest).map (m :: ·)
    | .ok none => collectProbes curr_mem curr_n (i + 1) rest

/-- `OmniModelResizer.next`.  A result tagged with a `resizer_id_` is
delegated to that resizer's `next` and re-tagged.  Otherwise the fixed
models are searched for a strictly larger configuration within the
`(0.95, 1.05]` size band, the smallest qualifying `nnodes` winning; if
none and resizers exist, each resizer is probed at `2, 4, 8` times the
current node count and the hit with the smallest memory deviation
(`1 - mem/current`) is returned; `exhausted` (`StopIteration`) if nothing
qualifies. -/
def computeNextDevs (curr_mem : ℚ) : List OResult → Except OErr (List (OResult × ℚ))
  | [] => .ok []
  | x :: xs =>
    match sizeToFloat x.mem_per_node with
    | none => .error .invalidSize
    | some v => (computeNextDevs curr_mem xs).map ((x, 1 - v / curr_mem) :: ·)

/-- `OmniModelResizer.next`: the deviation scoring of its probe pass
(`1 - mem/current`) is evaluated once per candidate in list order by
`computeNextDevs` above. -/
def omniNext (om : OmniModelResizer) (model : OResult) : Except OErr OResult :=
  match model.resizer_id_ with
  | some rid =>
    match om.resizers.get? rid with
    | none => .error .badIndex
    | some rz =>
      match rz.next model with
      | none => .error .badIndex
      | some m => .ok { m with resizer_id_ := some rid }
  | none =>
    match sizeToFloat model.mem_per_node with
    | none => .error .invalidSize
    | some curr_mem =>
      match collectFixedNext curr_mem model.nnodes om.fixed_models with
      | .error e => .error e
      | .ok (fm :: rest) =>
        let best := minByKeyPaired (fm, (fm.nnodes : ℚ)) (rest.map fun f => (f, (f.nnodes : ℚ)))
        .ok (best.toOResult ((sizeToFloat best.mem_per_node).getD 0))
      | .ok [] =>
        if om.resizers.isEmpty then .error .exhausted
        else
          match collectProbes curr_mem model.nnodes 0 om.resizers with
          | .error e => .error e
          | .ok [] => .error .exhausted
          | .ok (c :: cs) =>
            match computeNextDevs curr_mem (c :: cs) with
            | .error e => .error e
            | .ok [] => .error .exhausted
            | .ok (d :: ds) => .ok (minByKeyPaired d ds)

/-! ## SizeUnit lemmas -/

theorem natChars_congr (k : ℕ) :
    ∀ fuel fuel', k < fuel → k < fuel' → natChars fuel k = natChars fuel' k := by
  induction k using Nat.strong_induction_on with
  | _ k ih =>
    intro fuel fuel' h h'
    match fuel, fuel' with
    | f + 1, f' + 1 =>
      rw [natChars, natChars]
      by_cases hk : k < 10
      · rw [if_pos hk, if_pos hk]
      · have hd : k / 10 < k := Nat.div_lt_self (by omega) (by omega)
        rw [if_neg hk, if_neg hk, ih (k / 10) hd f f' (by omega) (by omega)]

theorem natChars_eq {fuel k : ℕ} (h : k < fuel) : natChars fuel k = natToChars k :=
  natChars_congr k fuel (k + 1) h (Nat.lt_succ_self k)

/-- The recursion equation of `natToChars`. -/
theorem natToChars_eq (k : ℕ) :
    natToChars k =
      if k < 10 then [digitChar k] else natToChars (k / 10) ++ [digitChar (k % 10)] := by
  by_cases hk : k < 10
  · rw [natToChars, natChars, if_pos hk, if_pos hk]
  · rw [natToChars, natChars, if_neg hk, if_neg hk,
      natChars_eq (Nat.div_lt_self (by omega) (by omega))]

theorem digitChar_isDigit {d : ℕ} (h : d < 10) : (digitChar d).isDigit = true := by
  interval_cases d <;> decide

theorem digitVal_digitChar {d : ℕ} (h : d < 10) : digitVal (digitChar d) = d := by
  interval_cases d <;> decide

theorem natToChars_digits (k : ℕ) : ∀ c ∈ natToChars k, c.isDigit = true := by
  induction k using Nat.strong_induction_on with
  | _ k ih =>
    rw [natToChars_eq]
    by_cases hk : k < 10
    · rw [if_pos hk]
      intro c hc
      rw [List.mem_singleton] at hc
      subst hc
      exact digitChar_isDigit hk
    · rw [if_neg hk]
      intro c hc
      rcases List.mem_append.1 hc with h1 | h1
      · exact ih _ (Nat.div_lt_self (by omega) (by omega)) c h1
      · rw [List.mem_singleton] at h1
        subst h1
        exact digitChar_isDigit (Nat.mod_lt _ (by omega))

theorem natToChars_ne_nil (k : ℕ) : natToChars k ≠ [] := by
  rw [natToChars_eq]
  by_cases hk : k < 10
  · rw [if_pos hk]; simp
  · rw [if_neg hk]; simp

theorem digitsToNat_append_singleton (a : List Char) (c : Char) :
    digitsToNat (a ++ [c]) = 10 * digitsToNat a + digitVal c := by
  rw [digitsToNat, List.foldl_append]
  rfl

theorem digitsToNat_natToChars (k : ℕ) : digitsToNat (natToChars k) = k := by
  induction k using Nat.strong_induction_on with
  | _ k ih =>
    rw [natToChars_eq]
    by_cases hk : k < 10
    · rw [if_pos hk]
      show 10 * 0 + digitVal (digitChar k) = k
      rw [digitVal_digitChar hk]
      omega
    · rw [if_neg hk, digitsToNat_append_singleton,
        ih _ (Nat.div_lt_self (by omega) (by omega)),
        digitVal_digitChar (Nat.mod_lt _ (by omega))]
      omega

theorem span_digits_append (ds rest : List Char) (h1 : ∀ c ∈ ds, c.isDigit = true)
    (h2 : ∀ c, rest.head? = some c → c.isDigit = false) :
    List.span Char.isDigit (ds ++ rest) = (ds, rest) := by
  have htw : rest.takeWhile Char.isDigit = [] := by
    cases rest with
    | nil => rfl
    | cons c cs => exact List.takeWhile_cons_of_neg (by simp [h2 c rfl])
  have hdw : rest.dropWhile Char.isDigit = rest := by
    cases rest with
    | nil => rfl
    | cons c cs => exact List.dropWhile_cons_of_neg (by simp [h2 c rfl])
  rw [List.span_eq_take_drop, List.takeWhile_append_of_pos h1,
    List.dropWhile_append_of_pos h1, htw, hdw, List.append_nil]

theorem digitsToNat_singleton (c : Char) : digitsToNat [c] = digitVal c := by
  show 10 * 0 + digitVal c = digitVal c
  omega

/-- The scanner on a rendered decimal `<digits>.<digit><tail>`, for any
tail that does not extend the number. -/
theorem scanSize_render (n d : ℕ) (hd : d < 10) (u : List Char)
    (hu : ∀ c, u.head? = some c → c.isDigit = false ∧ c ≠ 'e' ∧ c ≠ 'E') :
    scanSize (natToChars n ++ '.' :: digitChar d :: u) = some ⟨n, d, 1, 0, scanUnit u⟩ := by
  have hne : (natToChars n).isEmpty = false := by
    cases hc : natToChars n with
    | nil => exact absurd hc (natToChars_ne_nil n)
    | cons c cs => rfl
  have hspan : List.span Char.isDigit (natToChars n ++ '.' :: digitChar d :: u) =
      (natToChars n, '.' :: digitChar d :: u) := by
    refine span_digits_append _ _ (natToChars_digits n) ?_
    intro c hc
    rw [List.head?_cons, Option.some_inj] at hc
    subst hc
    decide
  have hfrac : scanFrac ('.' :: digitChar d :: u) = ((d, 1), u) := by
    have hspan2 : List.span Char.isDigit (digitChar d :: u) = ([digitChar d], u) := by
      have := span_digits_append [digitChar d] u
        (by intro c hc; rw [List.mem_singleton] at hc; subst hc; exact digitChar_isDigit hd)
        (fun c hc => (hu c hc).1)
      rwa [List.singleton_append] at this
    rw [scanFrac]
    simp only [hspan2, List.isEmpty_cons, digitsToNat_singleton, digitVal_digitChar hd,
      List.length_singleton, if_neg Bool.false_ne_true]
  have hexp : scanExp u = (0, u) := by
    cases u with
    | nil => rfl
    | cons c cs =>
      have hc := hu c rfl
      simp [scanExp, hc.2.1, hc.2.2]
  rw [scanSize]
  simp only [hspan, hne, hfrac, hexp, Bool.false_eq_true, if_false,
    digitsToNat_natToChars]

theorem unitValue_b : unitValue 'b' = 1 := by decide

/-- Value of the scanned rendering: `(n + d/10) * unit`. -/
theorem partsVal_render (n d : ℕ) (c : Char) :
    partsVal ⟨n, d, 1, 0, c⟩ = ((10 * n + d : ℕ) : ℚ) / 10 * unitValue c := by
  rw [partsVal]
  dsimp only
  rw [show qpow10 0 = 1 from by rw [qpow10]; norm_num]
  push_cast
  ring

/-- `roundHalfEven` never strays more than one half from its argument. -/
theorem abs_roundHalfEven_sub (x : ℚ) : |((roundHalfEven x : ℤ) : ℚ) - x| ≤ 1 / 2 := by
  rw [roundHalfEven]
  have h0 : (0 : ℚ) ≤ x - ⌊x⌋ := sub_nonneg.2 (Int.floor_le x)
  have h1 : x - ⌊x⌋ < 1 := by
    have := Int.lt_floor_add_one x
    linarith
  by_cases hlt : x - ⌊x⌋ < 1 / 2
  · rw [if_pos hlt, abs_le]
    constructor <;> linarith
  · rw [if_neg hlt]
    by_cases hgt : 1 / 2 < x - ⌊x⌋
    · rw [if_pos hgt, abs_le]
      push_cast
      constructor <;> linarith
    · rw [if_neg hgt]
      have heq : x - ⌊x⌋ = 1 / 2 := le_antisymm (not_lt.1 hgt) (not_lt.1 hlt)
      by_cases hdvd : 2 ∣ ⌊x⌋
      · rw [if_pos hdvd, abs_le]
        constructor <;> linarith
      · rw [if_neg hdvd, abs_le]
        push_cast
        constructor <;> linarith

theorem roundHalfEven_nonneg {x : ℚ} (h : 0 ≤ x) : 0 ≤ roundHalfEven x := by
  rw [roundHalfEven]
  have h0 : (0 : ℤ) ≤ ⌊x⌋ := Int.floor_nonneg.2 h
  split
  · exact h0
  · split
    · omega
    · split <;> omega

theorem roundHalfEven_intCast (n : ℤ) : roundHalfEven (n : ℚ) = n := by
  rw [roundHalfEven]
  norm_num

/-- Character data of `fmt1` at a nonnegative argument. -/
theorem fmt1_data {q : ℚ} (h : 0 ≤ q) :
    (fmt1 q).data =
      natToChars ((roundHalfEven (10 * q)).natAbs / 10) ++
        '.' :: digitChar ((roundHalfEven (10 * q)).natAbs % 10) :: [] := by
  have hr : ¬ roundHalfEven (10 * q) < 0 :=
    not_lt.2 (roundHalfEven_nonneg (by positivity))
  rw [fmt1, render1]
  simp only [if_neg hr]

/-- Parsing `fmt1 q ++ tail` recovers the rounded tenths exactly. -/
theorem sizeToFloatChars_fmt1 {q : ℚ} (h : 0 ≤ q) (u : List Char)
    (hu : ∀ c, u.head? = some c → c.isDigit = false ∧ c ≠ 'e' ∧ c ≠ 'E') :
    sizeToFloatChars ((fmt1 q).data ++ u) =
      some (((roundHalfEven (10 * q) : ℤ) : ℚ) / 10 * unitValue (scanUnit u)) := by
  have hr : 0 ≤ roundHalfEven (10 * q) := roundHalfEven_nonneg (by positivity)
  rw [fmt1_data h]
  rw [sizeToFloatChars, List.append_assoc]
  simp only [List.cons_append, List.nil_append]
  rw [scanSize_render _ _ (Nat.mod_lt _ (by omega)) u hu]
  dsimp only [Option.map]
  rw [partsVal_render, Nat.div_add_mod]
  have hnat : (((roundHalfEven (10 * q)).natAbs : ℕ) : ℚ) =
      ((roundHalfEven (10 * q) : ℤ) : ℚ) := by
    rw [Int.cast_natAbs]
    exact congrArg (fun z : ℤ => (z : ℚ)) (abs_of_nonneg hr)
  rw [hnat]

/-- C8: round-trip formatting.  `sizeToFloat (floatToSize x)` is within
`0.05` relative error of `x` for every size `x` from one byte up (the
formatter's unit choice makes the scaled mantissa at least `1`, so the
half-tenth rounding error stays below five percent; the "bytes through
gigabytes" range of the claim is formalized as `1 ≤ x`, with no upper
bound needed: the `G` fallback covers everything above a gigabyte). -/
theorem C8_sizeUnit_roundtrip (x : ℚ) (hx : 1 ≤ x) :
    ∃ v, sizeToFloat (floatToSize x) = some v ∧ |v - x| ≤ 5 / 100 * x := by
  have key : ∀ mult : ℚ, 0 < mult → mult ≤ x → ∀ u : List Char,
      (∀ c, u.head? = some c → c.isDigit = false ∧ c ≠ 'e' ∧ c ≠ 'E') →
      unitValue (scanUnit u) = mult →
      ∃ v, sizeToFloatChars ((fmt1 (x / mult)).data ++ u) = some v ∧
        |v - x| ≤ 5 / 100 * x := by
    intro mult hm hmx u hu huv
    have hy : 0 ≤ x / mult := by positivity
    refine ⟨_, sizeToFloatChars_fmt1 hy u hu, ?_⟩
    rw [huv]
    have hb := abs_roundHalfEven_sub (10 * (x / mult))
    set R := ((roundHalfEven (10 * (x / mult)) : ℤ) : ℚ) with hR
    have hsplit : R / 10 * mult - x = (R - 10 * (x / mult)) * (mult / 10) := by
      field_simp
    rw [hsplit, abs_mul, abs_of_pos (by positivity : (0 : ℚ) < mult / 10)]
    calc |R - 10 * (x / mult)| * (mult / 10)
        ≤ 1 / 2 * (mult / 10) := mul_le_mul_of_nonneg_right hb (by positivity)
      _ ≤ 5 / 100 * x := by nlinarith
  rw [sizeToFloat, floatToSize]
  by_cases h1 : x < 1024
  · rw [if_pos h1]
    obtain ⟨v, hv, hb⟩ := key 1 one_pos hx [] (by intro c hc; cases hc) (by decide)
    refine ⟨v, ?_, hb⟩
    rw [div_one, List.append_nil] at hv
    exact hv
  · rw [if_neg h1]
    by_cases h2 : x < 1024 * 1024
    · rw [if_pos h2]
      obtain ⟨v, hv, hb⟩ := key 1024 (by norm_num) (not_lt.1 h1) ['K']
        (by intro c hc; rw [List.head?_cons, Option.some_inj] at hc; subst hc; decide)
        (by decide)
      exact ⟨v, by simpa using hv, hb⟩
    · rw [if_neg h2]
      by_cases h3 : x < 1024 * 1024 * 1024
      · rw [if_pos h3]
        obtain ⟨v, hv, hb⟩ := key (1024 ^ 2) (by norm_num) (by have := not_lt.1 h2; nlinarith) ['M']
          (by intro c hc; rw [List.head?_cons, Option.some_inj] at hc; subst hc; decide)
          (by decide)
        exact ⟨v, by simpa using hv, hb⟩
      · rw [if_neg h3]
        obtain ⟨v, hv, hb⟩ := key (1024 ^ 3) (by norm_num) (by have := not_lt.1 h3; nlinarith) ['G']
          (by intro c hc; rw [List.head?_cons, Option.some_inj] at hc; subst hc; decide)
          (by decide)
        exact ⟨v, by simpa using hv, hb⟩

/-- Witness for `C8_sizeUnit_roundtrip` at `x = 500 * 1024²` (500M). -/
theorem C8_sizeUnit_roundtrip_witness :
    (1 : ℚ) ≤ 500 * 1024 ^ 2 ∧
      ∃ v, sizeToFloat (floatToSize (500 * 1024 ^ 2)) = some v ∧
        |v - 500 * 1024 ^ 2| ≤ 5 / 100 * (500 * 1024 ^ 2) :=
  ⟨by norm_num, C8_sizeUnit_roundtrip (500 * 1024 ^ 2) (by norm_num)⟩

/-! ## `make_process_grid` lemmas -/

theorem is_prime_iff {x : ℕ} (hx : 2 ≤ x) : is_prime x = true ↔ x.Prime := by
  rw [is_prime]
  simp only [Bool.or_eq_true, decide_eq_true_eq, List.all_eq_true]
  constructor
  · rintro (h1 | h)
    · omega
    · by_contra hnp
      obtain ⟨m, hmd, hm2, hmx⟩ := Nat.exists_dvd_of_not_prime2 hx hnp
      have hm2x : m ≤ x / 2 := by
        obtain ⟨k, hk⟩ := hmd
        have hk2 : 2 ≤ k := by
          rcases Nat.lt_or_ge k 2 with h1 | h1
          · interval_cases k <;> omega
          · exact h1
        have : m * 2 ≤ x := by calc m * 2 ≤ m * k := by exact Nat.mul_le_mul_left m hk2
                                  _ = x := hk.symm
        omega
      have hmem : m ∈ List.range' 2 (x / 2 - 1) := by
        rw [List.mem_range'_1]
        omega
      exact h m hmem (Nat.mod_eq_zero_of_dvd hmd)
  · intro hp
    right
    intro m hm
    rw [List.mem_range'_1] at hm
    intro hmod
    have hmd : m ∣ x := Nat.dvd_of_mod_eq_zero hmod
    rcases (Nat.Prime.eq_one_or_self_of_dvd hp m hmd) with h1 | h1
    · omega
    · have : x / 2 < x := Nat.div_lt_self (by omega) (by omega)
      omega

/-- `prime_factors n` catches every prime divisor of `n` (for `n ≥ 3`):
either `n` is prime and is returned alone, or every prime divisor is at
most `n / 2` and survives the filter. -/
theorem mem_prime_factors_of_dvd {n p : ℕ} (hn : 3 ≤ n) (hp : p.Prime) (hd : p ∣ n) :
    p ∈ prime_factors n := by
  rw [prime_factors]
  by_cases h : is_prime n = true
  · rw [if_pos h]
    have hnp : n.Prime := (is_prime_iff (by omega)).1 h
    have heq : p = n := (Nat.prime_dvd_prime_iff_eq hp hnp).1 hd
    simp [heq]
  · rw [if_neg h]
    have hnp : ¬ n.Prime := fun hc => h ((is_prime_iff (by omega)).2 hc)
    have hpn : p ≠ n := fun he => hnp (he ▸ hp)
    obtain ⟨k, hk⟩ := hd
    have hk2 : 2 ≤ k := by
      rcases Nat.lt_or_ge k 2 with h1 | h1
      · interval_cases k <;> omega
      · exact h1
    have hple : p ≤ n / 2 := by
      have : p * 2 ≤ n := by
        calc p * 2 ≤ p * k := Nat.mul_le_mul_left p hk2
          _ = n := hk.symm
      omega
    have hp2 := hp.two_le
    rw [List.mem_filter]
    refine ⟨by rw [List.mem_range'_1]; omega, ?_⟩
    rw [Bool.and_eq_true]
    exact ⟨(is_prime_iff hp2).2 hp,
      by simpa using Nat.mod_eq_zero_of_dvd ⟨k, hk⟩⟩

theorem prime_factors_two_le {n : ℕ} (hn : 3 ≤ n) : ∀ v ∈ prime_factors n, 2 ≤ v := by
  intro v hv
  rw [prime_factors] at hv
  by_cases h : is_prime n = true
  · rw [if_pos h] at hv
    rw [List.mem_singleton] at hv
    omega
  · rw [if_neg h] at hv
    have := (List.mem_filter.1 hv).1
    rw [List.mem_range'_1] at this
    omega

/-- The scan of `min_index` returns a valid index paired with the value
stored there, provided the start state does and the scanned list is the
tail of `full` from `idx` on. -/
theorem min_scan_spec (full : List ℕ) (xs : List ℕ) :
    ∀ (idx : ℕ) (best : ℕ × ℕ),
      best.1 < full.length → full.getD best.1 0 = best.2 →
      (∀ j, j < xs.length → idx + j < full.length ∧ full.getD (idx + j) 0 = xs.getD j 0) →
      (min_scan xs idx best).1 < full.length ∧
        full.getD (min_scan xs idx best).1 0 = (min_scan xs idx best).2 := by
  induction xs with
  | nil => intro idx best h1 h2 _; exact ⟨h1, h2⟩
  | cons x xs ih =>
    intro idx best h1 h2 hcomp
    rw [min_scan]
    apply ih (idx + 1)
    · by_cases hx : x < best.2
      · rw [if_pos hx]
        exact (hcomp 0 (by simp)).1
      · rwa [if_neg hx]
    · by_cases hx : x < best.2
      · rw [if_pos hx]
        simpa using (hcomp 0 (by simp)).2
      · rwa [if_neg hx]
    · intro j hj
      have := hcomp (j + 1) (by simpa using hj)
      constructor
      · have h3 := this.1; omega
      · have h3 := this.2
        rw [show idx + 1 + j = idx + (j + 1) by omega]
        simpa using h3

theorem max_scan_spec (full : List ℕ) (xs : List ℕ) :
    ∀ (idx : ℕ) (best : ℕ × ℕ),
      best.1 < full.length → full.getD best.1 0 = best.2 →
      (∀ j, j < xs.length → idx + j < full.length ∧ full.getD (idx + j) 0 = xs.getD j 0) →
      (max_scan xs idx best).1 < full.length ∧
        full.getD (max_scan xs idx best).1 0 = (max_scan xs idx best).2 := by
  induction xs with
  | nil => intro idx best h1 h2 _; exact ⟨h1, h2⟩
  | cons x xs ih =>
    intro idx best h1 h2 hcomp
    rw [max_scan]
    apply ih (idx + 1)
    · by_cases hx : best.2 < x
      · rw [if_pos hx]
        exact (hcomp 0 (by simp)).1
      · rwa [if_neg hx]
    · by_cases hx : best.2 < x
      · rw [if_pos hx]
        simpa using (hcomp 0 (by simp)).2
      · rwa [if_neg hx]
    · intro j hj
      have := hcomp (j + 1) (by simpa using hj)
      constructor
      · have h3 := this.1; omega
      · have h3 := this.2
        rw [show idx + 1 + j = idx + (j + 1) by omega]
        simpa using h3

theorem min_index_spec (l : List ℕ) (hl : l ≠ []) :
    (min_index l).1 < l.length ∧ l.getD (min_index l).1 0 = (min_index l).2 := by
  apply min_scan_spec l l 0 (0, l.headD 0)
  · cases l with
    | nil => exact absurd rfl hl
    | cons a as => simp
  · cases l with
    | nil => exact absurd rfl hl
    | cons a as => simp
  · intro j hj
    simpa using hj

theorem max_index_spec (l : List ℕ) (hl : l ≠ []) :
    (max_index l).1 < l.length ∧ l.getD (max_index l).1 0 = (max_index l).2 := by
  apply max_scan_spec l l 0 (0, l.headD 0)
  · cases l with
    | nil => exact absurd rfl hl
    | cons a as => simp
  · cases l with
    | nil => exact absurd rfl hl
    | cons a as => simp
  · intro j hj
    simpa using hj

/-- Setting slot `k` to `a` rescales the product by `a / old value`. -/
theorem prod_set_mul {l : List ℕ} {k : ℕ} (hk : k < l.length) (a : ℕ) :
    (l.set k a).prod * l.getD k 0 = l.prod * a := by
  rw [List.prod_set, if_pos hk, List.getD_eq_getElem l 0 hk]
  have hL : l.prod = (l.take k).prod * l[k] * (l.drop (k + 1)).prod := by
    rw [← List.prod_take_mul_prod_drop l (k + 1), List.prod_take_succ l k hk]
  rw [hL]
  ring

theorem getD_mem {l : List ℕ} {k : ℕ} (hk : k < l.length) : l.getD k 0 ∈ l := by
  rw [List.getD_eq_getElem l 0 hk]
  exact List.getElem_mem hk

end Bentoo

namespace Bentoo

/-- Invariants of one distribution loop: the leftover `n1` is a divisor no
longer divisible by `v`, slots stay positive with unchanged length, and
`slots.prod * n1` is preserved.  The fuel hypothesis `n1 ≤ fuel` is what
the top-level call (`fuel = n1`) satisfies. -/
theorem distribute_one_spec (dim v : ℕ) (hv : 2 ≤ v) (hdim : 0 < dim) :
    ∀ (fuel n1 i : ℕ) (res : List ℕ),
      0 < n1 → n1 ≤ fuel → res.length = dim → (∀ x ∈ res, 0 < x) →
      (distribute_one dim v fuel n1 i res).1 ∣ n1 ∧
        0 < (distribute_one dim v fuel n1 i res).1 ∧
        ¬ v ∣ (distribute_one dim v fuel n1 i res).1 ∧
        (distribute_one dim v fuel n1 i res).2.2.length = dim ∧
        (∀ x ∈ (distribute_one dim v fuel n1 i res).2.2, 0 < x) ∧
        (distribute_one dim v fuel n1 i res).2.2.prod *
          (distribute_one dim v fuel n1 i res).1 = res.prod * n1 := by
  intro fuel
  induction fuel with
  | zero => intro n1 i res h1 h2 _ _; omega
  | succ fuel ih =>
    intro n1 i res h1 h2 hlen hpos
    rw [distribute_one]
    by_cases hc : 2 ≤ v ∧ 0 < n1 ∧ n1 % v = 0
    · rw [if_pos hc]
      have hdvd : v ∣ n1 := Nat.dvd_of_mod_eq_zero hc.2.2
      have hn1v : 0 < n1 / v := Nat.div_pos (Nat.le_of_dvd h1 hdvd) (by omega)
      have hlt : n1 / v < n1 := Nat.div_lt_self h1 (by omega)
      have hidx : i % dim < res.length := by rw [hlen]; exact Nat.mod_lt _ hdim
      have hg : 0 < res.getD (i % dim) 0 := hpos _ (getD_mem hidx)
      have hpos2 : ∀ x ∈ res.set (i % dim) (res.getD (i % dim) 0 * v), 0 < x := by
        intro x hx
        rcases List.mem_or_eq_of_mem_set hx with h | h
        · exact hpos x h
        · subst h; positivity
      obtain ⟨d1, d2, d3, d4, d5, d6⟩ :=
        ih (n1 / v) (i + 1) (res.set (i % dim) (res.getD (i % dim) 0 * v)) hn1v
          (by omega) (by rw [List.length_set]; exact hlen) hpos2
      refine ⟨d1.trans (Nat.div_dvd_of_dvd hdvd), d2, d3, d4, d5, ?_⟩
      rw [d6]
      have hps := prod_set_mul hidx (res.getD (i % dim) 0 * v)
      have hcancel : (res.set (i % dim) (res.getD (i % dim) 0 * v)).prod = res.prod * v := by
        have := hps
        rw [show res.prod * (res.getD (i % dim) 0 * v) =
          res.prod * v * res.getD (i % dim) 0 by ring] at this
        exact Nat.eq_of_mul_eq_mul_right hg this
      rw [hcancel, Nat.mul_assoc, Nat.mul_div_cancel' hdvd]
    · rw [if_neg hc]
      refine ⟨dvd_rfl, h1, ?_, hlen, hpos, rfl⟩
      intro hvd
      exact hc ⟨hv, h1, Nat.mod_eq_zero_of_dvd hvd⟩

/-- Invariants of the distribution pass over all primes. -/
theorem distribute_all_spec (dim : ℕ) (hdim : 0 < dim) :
    ∀ (vs : List ℕ) (n1 i : ℕ) (res : List ℕ),
      (∀ v ∈ vs, 2 ≤ v) → 0 < n1 → res.length = dim → (∀ x ∈ res, 0 < x) →
      (distribute_all dim vs n1 i res).1 ∣ n1 ∧
        0 < (distribute_all dim vs n1 i res).1 ∧
        (∀ v ∈ vs, ¬ v ∣ (distribute_all dim vs n1 i res).1) ∧
        (distribute_all dim vs n1 i res).2.2.length = dim ∧
        (∀ x ∈ (distribute_all dim vs n1 i res).2.2, 0 < x) ∧
        (distribute_all dim vs n1 i res).2.2.prod * (distribute_all dim vs n1 i res).1 =
          res.prod * n1 := by
  intro vs
  induction vs with
  | nil =>
    intro n1 i res _ h1 hlen hpos
    exact ⟨dvd_rfl, h1, by simp, hlen, hpos, rfl⟩
  | cons v vs ih =>
    intro n1 i res hvs h1 hlen hpos
    rw [distribute_all]
    obtain ⟨d1, d2, d3, d4, d5, d6⟩ :=
      distribute_one_spec dim v (hvs v (by simp)) hdim n1 n1 i res h1 le_rfl hlen hpos
    obtain ⟨e1, e2, e3, e4, e5, e6⟩ :=
      ih (distribute_one dim v n1 n1 i res).1 (distribute_one dim v n1 n1 i res).2.1
        (distribute_one dim v n1 n1 i res).2.2
        (fun w hw => hvs w (by simp [hw])) d2 d4 d5
    refine ⟨e1.trans d1, e2, ?_, e4, e5, by rw [e6, d6]⟩
    intro w hw
    rcases List.mem_cons.1 hw with h | h
    · subst h
      intro hwd
      exact d3 (hwd.trans e1)
    · exact e3 w h

theorem getD_set_ne {l : List ℕ} {i j : ℕ} (h : i ≠ j) (a : ℕ) (hj : j < l.length) :
    (l.set i a).getD j 0 = l.getD j 0 := by
  rw [List.getD_eq_getElem (l.set i a) 0 (by rw [List.length_set]; exact hj),
    List.getD_eq_getElem l 0 hj]
  exact List.getElem_set_ne h _

/-- One rebalancing step (move a factor `v` from the maximum slot to the
minimum slot) preserves length, positivity and the product. -/
theorem balance_step {res : List ℕ} {v : ℕ} (hpos : ∀ x ∈ res, 0 < x) (hne : res ≠ [])
    (hc : (min_index res).2 * v < (max_index res).2 ∧ (max_index res).2 % v = 0) :
    ((res.set (max_index res).1 (res.getD (max_index res).1 0 / v)).set (min_index res).1
        ((res.set (max_index res).1 (res.getD (max_index res).1 0 / v)).getD
          (min_index res).1 0 * v)).length = res.length ∧
      (∀ x ∈ (res.set (max_index res).1 (res.getD (max_index res).1 0 / v)).set
          (min_index res).1
          ((res.set (max_index res).1 (res.getD (max_index res).1 0 / v)).getD
            (min_index res).1 0 * v), 0 < x) ∧
      ((res.set (max_index res).1 (res.getD (max_index res).1 0 / v)).set (min_index res).1
        ((res.set (max_index res).1 (res.getD (max_index res).1 0 / v)).getD
          (min_index res).1 0 * v)).prod = res.prod := by
  obtain ⟨hmaI, hmaV⟩ := max_index_spec res hne
  obtain ⟨hmiI, hmiV⟩ := min_index_spec res hne
  have hmaPos : 0 < res.getD (max_index res).1 0 := hpos _ (getD_mem hmaI)
  have hmiPos : 0 < res.getD (min_index res).1 0 := hpos _ (getD_mem hmiI)
  have hv1 : 1 ≤ v := by
    rcases Nat.eq_zero_or_pos v with h0 | h0
    · subst h0
      rw [Nat.mod_zero] at hc
      rw [hmaV] at hmaPos
      omega
    · exact h0
  have hvlt : (min_index res).2 < (max_index res).2 :=
    lt_of_le_of_lt (Nat.le_mul_of_pos_right _ (by omega)) hc.1
  have hine : (max_index res).1 ≠ (min_index res).1 := by
    intro he
    rw [he, hmiV] at hmaV
    omega
  have hdvd : v ∣ res.getD (max_index res).1 0 := by
    rw [hmaV]
    exact Nat.dvd_of_mod_eq_zero hc.2
  have hquotPos : 0 < res.getD (max_index res).1 0 / v :=
    Nat.div_pos (Nat.le_of_dvd hmaPos hdvd) (by omega)
  have hlen1 : (res.set (max_index res).1 (res.getD (max_index res).1 0 / v)).length =
      res.length := List.length_set res _ _
  have hpos1 : ∀ x ∈ res.set (max_index res).1 (res.getD (max_index res).1 0 / v), 0 < x := by
    intro x hx
    rcases List.mem_or_eq_of_mem_set hx with h | h
    · exact hpos x h
    · rw [h]; exact hquotPos
  have hprod1 : (res.set (max_index res).1 (res.getD (max_index res).1 0 / v)).prod * v =
      res.prod := by
    have hps := prod_set_mul hmaI (res.getD (max_index res).1 0 / v)
    apply Nat.eq_of_mul_eq_mul_right hquotPos
    calc (res.set (max_index res).1 (res.getD (max_index res).1 0 / v)).prod * v *
          (res.getD (max_index res).1 0 / v)
        = (res.set (max_index res).1 (res.getD (max_index res).1 0 / v)).prod *
            (res.getD (max_index res).1 0 / v * v) := by ring
      _ = (res.set (max_index res).1 (res.getD (max_index res).1 0 / v)).prod *
            res.getD (max_index res).1 0 := by rw [Nat.div_mul_cancel hdvd]
      _ = res.prod * (res.getD (max_index res).1 0 / v) := hps
  have hgetmi : (res.set (max_index res).1 (res.getD (max_index res).1 0 / v)).getD
      (min_index res).1 0 = res.getD (min_index res).1 0 := getD_set_ne hine _ hmiI
  have hmiI1 : (min_index res).1 <
      (res.set (max_index res).1 (res.getD (max_index res).1 0 / v)).length := by
    rw [hlen1]; exact hmiI
  refine ⟨by rw [List.length_set, hlen1], ?_, ?_⟩
  · intro x hx
    rcases List.mem_or_eq_of_mem_set hx with h | h
    · exact hpos1 x h
    · rw [h, hgetmi]
      positivity
  · have hps := prod_set_mul hmiI1
      ((res.set (max_index res).1 (res.getD (max_index res).1 0 / v)).getD
        (min_index res).1 0 * v)
    apply Nat.eq_of_mul_eq_mul_right (show 0 <
      (res.set (max_index res).1 (res.getD (max_index res).1 0 / v)).getD
        (min_index res).1 0 by rw [hgetmi]; exact hmiPos)
    rw [hps]
    calc (res.set (max_index res).1 (res.getD (max_index res).1 0 / v)).prod *
          ((res.set (max_index res).1 (res.getD (max_index res).1 0 / v)).getD
            (min_index res).1 0 * v)
        = (res.set (max_index res).1 (res.getD (max_index res).1 0 / v)).prod * v *
            (res.set (max_index res).1 (res.getD (max_index res).1 0 / v)).getD
              (min_index res).1 0 := by ring
      _ = res.prod *
            (res.set (max_index res).1 (res.getD (max_index res).1 0 / v)).getD
              (min_index res).1 0 := by rw [hprod1]

/-- The rebalancing loop preserves length, positivity and the product
(for any fuel). -/
theorem balance_one_spec (v : ℕ) :
    ∀ (fuel : ℕ) (res : List ℕ), (∀ x ∈ res, 0 < x) →
      (balance_one v fuel res).length = res.length ∧
        (∀ x ∈ balance_one v fuel res, 0 < x) ∧
        (balance_one v fuel res).prod = res.prod := by
  intro fuel
  induction fuel with
  | zero => intro res h; exact ⟨rfl, h, rfl⟩
  | succ fuel ih =>
    intro res hpos
    rw [balance_one]
    by_cases hc : (min_index res).2 * v < (max_index res).2 ∧ (max_index res).2 % v = 0
    · rw [if_pos hc]
      have hne : res ≠ [] := by
        intro he
        subst he
        simp [min_index, max_index, min_scan, max_scan] at hc
      obtain ⟨b1, b2, b3⟩ := balance_step hpos hne hc
      obtain ⟨f1, f2, f3⟩ := ih _ b2
      exact ⟨by rw [f1, b1], f2, by rw [f3, b3]⟩
    · rw [if_neg hc]
      exact ⟨rfl, hpos, rfl⟩

/-- The rebalancing pass over all primes preserves length, positivity and
the product. -/
theorem balance_fold_spec (vs : List ℕ) :
    ∀ (r : List ℕ), (∀ x ∈ r, 0 < x) →
      (vs.foldl (fun r v => balance_one v (sumSq r + 1) r) r).length = r.length ∧
        (∀ x ∈ vs.foldl (fun r v => balance_one v (sumSq r + 1) r) r, 0 < x) ∧
        (vs.foldl (fun r v => balance_one v (sumSq r + 1) r) r).prod = r.prod := by
  induction vs with
  | nil => intro r h; exact ⟨rfl, h, rfl⟩
  | cons v vs ih =>
    intro r h
    rw [List.foldl_cons]
    obtain ⟨b1, b2, b3⟩ := balance_one_spec v (sumSq r + 1) r h
    obtain ⟨f1, f2, f3⟩ := ih _ b2
    exact ⟨by rw [f1, b1], f2, by rw [f3, b3]⟩

theorem sortDesc_perm (l : List ℕ) : List.Perm (sortDesc l) l := List.perm_insertionSort _ l

theorem sortDesc_length (l : List ℕ) : (sortDesc l).length = l.length :=
  (sortDesc_perm l).length_eq

theorem sortDesc_prod (l : List ℕ) : (sortDesc l).prod = l.prod :=
  (sortDesc_perm l).prod_eq

theorem sortDesc_mem {l : List ℕ} {x : ℕ} : x ∈ sortDesc l ↔ x ∈ l :=
  (sortDesc_perm l).mem_iff

/-- C3: for every `n ≥ 1` and `dim ≥ 1`, `make_process_grid n dim` is a
sequence of exactly `dim` positive integers whose product is exactly `n` —
so the source's `assert product(result) == n` never fires. -/
theorem C3_make_process_grid_spec (n dim : ℕ) (hn : 1 ≤ n) (hdim : 1 ≤ dim) :
    (make_process_grid n dim).length = dim ∧
      (∀ x ∈ make_process_grid n dim, 0 < x) ∧
      (make_process_grid n dim).prod = n := by
  rw [make_process_grid]
  by_cases h1 : n = 1
  · rw [if_pos h1]
    refine ⟨List.length_replicate dim 1, ?_, by simp [h1]⟩
    intro x hx
    rw [List.mem_replicate] at hx
    omega
  · rw [if_neg h1]
    by_cases h2 : n = 2
    · rw [if_pos h2]
      match dim, hdim with
      | d + 1, _ =>
        rw [List.replicate_succ, List.set_cons_zero]
        refine ⟨by simp, ?_, by simp⟩
        intro x hx
        rcases List.mem_cons.1 hx with h | h
        · omega
        · rw [List.mem_replicate] at h
          omega
    · rw [if_neg h2]
      have hn3 : 3 ≤ n := by omega
      have hvs := prime_factors_two_le hn3
      obtain ⟨d1, d2, d3, d4, d5, d6⟩ := distribute_all_spec dim (by omega)
        (prime_factors n) n 0 (List.replicate dim 1) hvs (by omega)
        (List.length_replicate dim 1)
        (by intro x hx; rw [List.mem_replicate] at hx; omega)
      have hone : (distribute_all dim (prime_factors n) n 0 (List.replicate dim 1)).1 = 1 := by
        by_contra hne
        obtain ⟨p, hp, hpd⟩ := Nat.exists_prime_and_dvd hne
        exact d3 p (mem_prime_factors_of_dvd hn3 hp (hpd.trans d1)) hpd
      have hprodD :
          (distribute_all dim (prime_factors n) n 0 (List.replicate dim 1)).2.2.prod = n := by
        have hd := d6
        rw [hone, List.prod_replicate, one_pow, Nat.mul_one, Nat.one_mul] at hd
        exact hd
      obtain ⟨f1, f2, f3⟩ := balance_fold_spec (prime_factors n)
        (sortDesc (distribute_all dim (prime_factors n) n 0 (List.replicate dim 1)).2.2)
        (fun x hx => d5 x (sortDesc_mem.1 hx))
      refine ⟨?_, ?_, ?_⟩
      · rw [sortDesc_length, f1, sortDesc_length, d4]
      · intro x hx
        exact f2 x (sortDesc_mem.1 hx)
      · rw [sortDesc_prod, f3, sortDesc_prod, hprodD]

/-- Witness for `C3_make_process_grid_spec` at `n = 12, dim = 3`. -/
theorem C3_make_process_grid_spec_witness :
    1 ≤ 12 ∧ 1 ≤ 3 ∧
      ((make_process_grid 12 3).length = 3 ∧
        (∀ x ∈ make_process_grid 12 3, 0 < x) ∧
        (make_process_grid 12 3).prod = 12) :=
  ⟨by decide, by decide, C3_make_process_grid_spec 12 3 (by decide) (by decide)⟩

/-- C9: the eight regression fixtures of `make_process_grid`. -/
theorem C9_make_process_grid_fixtures :
    make_process_grid 6 2 = [3, 2] ∧ make_process_grid 2 2 = [2, 1] ∧
      make_process_grid 4 2 = [2, 2] ∧ make_process_grid 8 2 = [4, 2] ∧
      make_process_grid 3072 2 = [64, 48] ∧ make_process_grid 6 3 = [3, 2, 1] ∧
      make_process_grid 2 3 = [2, 1, 1] ∧ make_process_grid 16 3 = [4, 2, 2] :=
  ⟨by decide, by decide, by decide, by decide, by decide, by decide, by decide, by decide⟩

/-! ## Resizer lemmas -/

theorem nfloor_eq {q : ℚ} {n : ℕ} (h1 : (n : ℚ) ≤ q) (h2 : q < n + 1) : ⌊q⌋₊ = n := by
  rw [Nat.floor_eq_iff (le_trans (by positivity) h1)]
  exact ⟨h1, h2⟩

theorem nceil_eq {q : ℚ} {n : ℕ} (hn : n ≠ 0) (h1 : ((n - 1 : ℕ) : ℚ) < q) (h2 : q ≤ n) :
    ⌈q⌉₊ = n := (Nat.ceil_eq_iff hn).2 ⟨h1, h2⟩

theorem clog_eq_of {b n k : ℕ} (hb : 1 < b) (h1 : n ≤ b ^ k) (h2 : b ^ (k - 1) < n)
    (hk : 1 ≤ k) : Nat.clog b n = k := by
  have hle : Nat.clog b n ≤ k := (Nat.le_pow_iff_clog_le hb).1 h1
  have hgt := (Nat.pow_lt_iff_lt_clog hb).1 h2
  omega

theorem floatToSize_bytes {f : ℚ} (h : f < 1024) {m : ℤ} (hm : 10 * f = (m : ℚ)) :
    floatToSize f = ⟨render1 m⟩ := by
  rw [floatToSize, if_pos h, fmt1, hm, roundHalfEven_intCast]

theorem floatToSize_K {f : ℚ} (h1 : 1024 ≤ f) (h2 : f < 1024 * 1024) {m : ℤ}
    (hm : 10 * (f / 1024) = (m : ℚ)) :
    floatToSize f = ⟨render1 m⟩ ++ "K" := by
  rw [floatToSize, if_neg (by linarith), if_pos h2, fmt1, hm, roundHalfEven_intCast]

theorem floatToSize_M {f : ℚ} (h1 : 1024 * 1024 ≤ f) (h2 : f < 1024 * 1024 * 1024) {m : ℤ}
    (hm : 10 * (f / 1024 ^ 2) = (m : ℚ)) :
    floatToSize f = ⟨render1 m⟩ ++ "M" := by
  rw [floatToSize, if_neg (by linarith), if_neg (by linarith), if_pos h2,
    fmt1, hm, roundHalfEven_intCast]

theorem floatToSize_big {f : ℚ} (h : 1024 * 1024 * 1024 ≤ f) {m : ℤ}
    (hm : 10 * (f / 1024 ^ 3) = (m : ℚ)) :
    floatToSize f = ⟨render1 m⟩ ++ "G" := by
  rw [floatToSize, if_neg (by linarith), if_neg (by linarith), if_neg (by linarith),
    fmt1, hm, roundHalfEven_intCast]

/-- The early-accept branch of the unstructured `resize`. -/
theorem uresize_early {dim : ℕ} {T m : ℚ} {n : ℕ}
    (hc : |2 * (m * (n : ℚ) - T) / (T + m * (n : ℚ))| < 1 / 100 ∨
      (T < m * (n : ℚ) ∧ |2 * (m * (n : ℚ) - T) / (T + m * (n : ℚ))| < 25 / 100)) :
    (Resizer.unstructured dim T).resize m n =
      some { nnodes := n, mem_per_node := floatToSize (T / (n : ℚ)),
             mem_raw := T / (n : ℚ), nrefines := some 0 } := by
  rw [Resizer.resize, if_pos hc]

/-- The shrink branch of the unstructured `resize` (request below the
model, outside the accept band): solve for a power-of-two node count. -/
theorem uresize_shrink {dim : ℕ} {T m : ℚ} {n : ℕ}
    (hc : ¬ (|2 * (m * (n : ℚ) - T) / (T + m * (n : ℚ))| < 1 / 100 ∨
      (T < m * (n : ℚ) ∧ |2 * (m * (n : ℚ) - T) / (T + m * (n : ℚ))| < 25 / 100)))
    (hc2 : ¬ T < m * (n : ℚ)) {K c : ℕ}
    (hK : ⌈T / m⌉₊ = K) (hc3 : Nat.clog 2 K = c) :
    (Resizer.unstructured dim T).resize m n =
      some { nnodes := 2 ^ c, mem_per_node := floatToSize (T / ((2 ^ c : ℕ) : ℚ)),
             mem_raw := T / ((2 ^ c : ℕ) : ℚ), nrefines := some 0 } := by
  rw [Resizer.resize, if_neg hc, if_neg hc2]
  dsimp only
  rw [hK, hc3]

/-- The grow branch of the unstructured `resize` when the refined model is
not more than 2× below the request: refine only, keep `nnodes`. -/
theorem uresize_grow_keep {dim : ℕ} {T m : ℚ} {n : ℕ}
    (hc : ¬ (|2 * (m * (n : ℚ) - T) / (T + m * (n : ℚ))| < 1 / 100 ∨
      (T < m * (n : ℚ) ∧ |2 * (m * (n : ℚ) - T) / (T + m * (n : ℚ))| < 25 / 100)))
    (hc2 : T < m * (n : ℚ)) {i : ℕ}
    (hi : Nat.log (2 ^ dim) ⌊m * (n : ℚ) / T⌋₊ = i)
    (hc3 : ¬ T * ((2 ^ dim) ^ i : ℕ) / (n : ℚ) * 2 < m) :
    (Resizer.unstructured dim T).resize m n =
      some { nnodes := n, mem_per_node := floatToSize (T * ((2 ^ dim) ^ i : ℕ) / (n : ℚ)),
             mem_raw := T * ((2 ^ dim) ^ i : ℕ) / (n : ℚ), nrefines := some i } := by
  rw [Resizer.resize, if_neg hc, if_pos hc2]
  dsimp only
  rw [hi, if_neg hc3]

/-- The grow branch of the unstructured `resize` when an extra refinement
and a new power-of-two node count are needed (the source's
`assert real_mem_per_node > mem_per_node` succeeding). -/
theorem uresize_grow_adjust {dim : ℕ} {T m : ℚ} {n : ℕ}
    (hc : ¬ (|2 * (m * (n : ℚ) - T) / (T + m * (n : ℚ))| < 1 / 100 ∨
      (T < m * (n : ℚ) ∧ |2 * (m * (n : ℚ) - T) / (T + m * (n : ℚ))| < 25 / 100)))
    (hc2 : T < m * (n : ℚ)) {i : ℕ}
    (hi : Nat.log (2 ^ dim) ⌊m * (n : ℚ) / T⌋₊ = i)
    (hc3 : T * ((2 ^ dim) ^ i : ℕ) / (n : ℚ) * 2 < m)
    (hc4 : m < T * ((2 ^ dim) ^ (i + 1) : ℕ) / (n : ℚ)) {K c : ℕ}
    (hK : ⌈T * ((2 ^ dim) ^ (i + 1) : ℕ) / (m * (n : ℚ))⌉₊ = K)
    (hc5 : Nat.clog 2 (K * n) = c) :
    (Resizer.unstructured dim T).resize m n =
      some { nnodes := 2 ^ c,
             mem_per_node := floatToSize (T * ((2 ^ dim) ^ (i + 1) : ℕ) / ((2 ^ c : ℕ) : ℚ)),
             mem_raw := T * ((2 ^ dim) ^ (i + 1) : ℕ) / ((2 ^ c : ℕ) : ℚ),
             nrefines := some (i + 1) } := by
  rw [Resizer.resize, if_neg hc, if_pos hc2]
  dsimp only
  rw [hi, if_pos hc3, if_pos hc4, hK, hc5]

/-- The assertion-failure outcome of the grow branch. -/
theorem uresize_grow_assert {dim : ℕ} {T m : ℚ} {n : ℕ}
    (hc : ¬ (|2 * (m * (n : ℚ) - T) / (T + m * (n : ℚ))| < 1 / 100 ∨
      (T < m * (n : ℚ) ∧ |2 * (m * (n : ℚ) - T) / (T + m * (n : ℚ))| < 25 / 100)))
    (hc2 : T < m * (n : ℚ)) {i : ℕ}
    (hi : Nat.log (2 ^ dim) ⌊m * (n : ℚ) / T⌋₊ = i)
    (hc3 : T * ((2 ^ dim) ^ i : ℕ) / (n : ℚ) * 2 < m)
    (hc4 : ¬ m < T * ((2 ^ dim) ^ (i + 1) : ℕ) / (n : ℚ)) :
    (Resizer.unstructured dim T).resize m n = none := by
  rw [Resizer.resize, if_neg hc, if_pos hc2]
  dsimp only
  rw [hi, if_pos hc3, if_neg hc4]

/-- `UnstructuredGridModelResizer.resize` of `helpers2.py` (the module the
generator and the unit tests import): identical to the `helpers.py`
version except that the accept band is the flat `rel < 0.25` instead of
`rel < 0.01 or (model smaller and rel < 0.25)`; its two debug `print`
calls do not affect the value and are not modelled. -/
def uresize2 (dim : ℕ) (T : ℚ) (mem_per_node : ℚ) (nnodes : ℕ) : Option OResult :=
  let stride := 2 ^ dim
  let total_mem_req := mem_per_node * (nnodes : ℚ)
  let rel := |2 * (total_mem_req - T) / (T + total_mem_req)|
  if rel < 25 / 100 then
    some { nnodes := nnodes
           mem_per_node := floatToSize (T / (nnodes : ℚ))
           mem_raw := T / (nnodes : ℚ)
           nrefines := some 0 }
  else if T < total_mem_req then
    let rto := total_mem_req / T
    let i := Nat.log stride ⌊rto⌋₊
    let real_mem := T * ((stride ^ i : ℕ) : ℚ)
    let real_mem_per_node := real_mem / (nnodes : ℚ)
    if real_mem_per_node * 2 < mem_per_node then
      let i' := i + 1
      let real_mem' := T * ((stride ^ i' : ℕ) : ℚ)
      let real_mem_per_node' := real_mem' / (nnodes : ℚ)
      if mem_per_node < real_mem_per_node' then
        let new_nnodes0 : ℕ := ⌈real_mem' / total_mem_req⌉₊ * nnodes
        let new_nnodes : ℕ := 2 ^ Nat.clog 2 new_nnodes0
        some { nnodes := new_nnodes
               mem_per_node := floatToSize (real_mem' / (new_nnodes : ℚ))
               mem_raw := real_mem' / (new_nnodes : ℚ)
               nrefines := some i' }
      else none
    else
      some { nnodes := nnodes
             mem_per_node := floatToSize real_mem_per_node
             mem_raw := real_mem_per_node
             nrefines := some i }
  else
    let nnodes2 := ⌈T / mem_per_node⌉₊
    let nnodes3 := 2 ^ Nat.clog 2 nnodes2
    some { nnodes := nnodes3
           mem_per_node := floatToSize (T / (nnodes3 : ℚ))
           mem_raw := T / (nnodes3 : ℚ)
           nrefines := some 0 }

theorem uresize2_early {dim : ℕ} {T m : ℚ} {n : ℕ}
    (hc : |2 * (m * (n : ℚ) - T) / (T + m * (n : ℚ))| < 25 / 100) :
    uresize2 dim T m n =
      some { nnodes := n, mem_per_node := floatToSize (T / (n : ℚ)),
             mem_raw := T / (n : ℚ), nrefines := some 0 } := by
  rw [uresize2, if_pos hc]

theorem sizeToFloat_eq_of_scan {s : String} {p : SizeParts} {v : ℚ}
    (hs : scanSize s.data = some p) (hv : partsVal p = v) : sizeToFloat s = some v := by
  rw [sizeToFloat, sizeToFloatChars, hs]
  dsimp only [Option.map]
  rw [hv]

theorem log_floor_eq {b : ℕ} {q : ℚ} {k j : ℕ} (hq : ⌊q⌋₊ = k) (hl : Nat.log b k = j) :
    Nat.log b ⌊q⌋₊ = j := by rw [hq, hl]

/-- C2: the unstructured-resize fixtures of `tests/test_helpers.py` for
`dim = 3`, `total_mem = "5G"`, evaluated on the `helpers.py` resizer
(which satisfies all of them), together with the divergence of the
`helpers2.py` revision — the module the tests actually import — whose flat
`rel < 0.25` accept band returns `(0, 1, "5.0G")` instead of the expected
`(0, 2, "2.5G")` on `resize("4.5G", 1)`. -/
theorem C2_unstructured_fixtures :
    sizeToFloat "5G" = some (5 * 1024 ^ 3) ∧
    sizeToFloat "5.1G" = some (51 / 10 * 1024 ^ 3) ∧
    sizeToFloat "4.5G" = some (45 / 10 * 1024 ^ 3) ∧
    sizeToFloat "500M" = some (500 * 1024 ^ 2) ∧
    (∃ r, (Resizer.unstructured 3 (5 * 1024 ^ 3)).resize (51 / 10 * 1024 ^ 3) 1 = some r ∧
      r.nrefines = some 0 ∧ r.nnodes = 1 ∧ r.mem_per_node = "5.0G") ∧
    (∃ r, (Resizer.unstructured 3 (5 * 1024 ^ 3)).resize (45 / 10 * 1024 ^ 3) 1 = some r ∧
      r.nrefines = some 0 ∧ r.nnodes = 2 ∧ r.mem_per_node = "2.5G") ∧
    (∃ r, (Resizer.unstructured 3 (5 * 1024 ^ 3)).resize (500 * 1024 ^ 2) 1 = some r ∧
      r.nrefines = some 0 ∧ r.nnodes = 16 ∧ r.mem_per_node = "320.0M") ∧
    (∃ r, (Resizer.unstructured 3 (5 * 1024 ^ 3)).resize (500 * 1024 ^ 2) 8 = some r ∧
      r.nrefines = some 0 ∧ r.nnodes = 16 ∧ r.mem_per_node = "320.0M") ∧
    (∃ r, (Resizer.unstructured 3 (5 * 1024 ^ 3)).resize (500 * 1024 ^ 2) 16 = some r ∧
      r.nrefines = some 0 ∧ r.nnodes = 16 ∧ r.mem_per_node = "320.0M") ∧
    (∃ r, (Resizer.unstructured 3 (5 * 1024 ^ 3)).resize (500 * 1024 ^ 2) 64 = some r ∧
      r.nrefines = some 1 ∧ r.nnodes = 128 ∧ r.mem_per_node = "320.0M") ∧
    (∃ r, uresize2 3 (5 * 1024 ^ 3) (45 / 10 * 1024 ^ 3) 1 = some r ∧
      r.nrefines = some 0 ∧ r.nnodes = 1 ∧ r.mem_per_node = "5.0G") := by
  refine ⟨?_, ?_, ?_, ?_, ?_, ?_, ?_, ?_, ?_, ?_, ?_⟩
  · exact sizeToFloat_eq_of_scan (p := ⟨5, 0, 0, 0, 'G'⟩) (by decide)
      (by simp +decide [partsVal, qpow10, unitValue])
  · refine sizeToFloat_eq_of_scan (p := ⟨5, 1, 1, 0, 'G'⟩) (by decide) ?_
    simp +decide [partsVal, qpow10, unitValue]
    norm_num
  · refine sizeToFloat_eq_of_scan (p := ⟨4, 5, 1, 0, 'G'⟩) (by decide) ?_
    simp +decide [partsVal, qpow10, unitValue]
    norm_num
  · exact sizeToFloat_eq_of_scan (p := ⟨500, 0, 0, 0, 'M'⟩) (by decide)
      (by simp +decide [partsVal, qpow10, unitValue])
  · -- resize("5.1G", 1): early accept, model slightly smaller than request
    refine ⟨_, uresize_early (Or.inr ⟨by push_cast; norm_num,
      by push_cast; norm_num [abs_lt]⟩), rfl, rfl, ?_⟩
    dsimp only
    rw [floatToSize_big (by push_cast; norm_num) (m := 50) (by push_cast; norm_num)]
    decide
  · -- resize("4.5G", 1): shrink to 2 nodes
    refine ⟨_, uresize_shrink (K := 2) (c := 1)
      (by push_cast; norm_num [abs_lt, le_abs])
      (by push_cast; norm_num)
      (nceil_eq (by norm_num) (by push_cast; norm_num) (by push_cast; norm_num))
      (clog_eq_of (by norm_num) (by norm_num) (by norm_num) (by norm_num)), rfl, rfl, ?_⟩
    dsimp only
    rw [floatToSize_big (by push_cast; norm_num) (m := 25) (by push_cast; norm_num)]
    decide
  · -- resize("500M", 1): shrink to 16 nodes
    refine ⟨_, uresize_shrink (K := 11) (c := 4)
      (by push_cast; norm_num [abs_lt, le_abs])
      (by push_cast; norm_num)
      (nceil_eq (by norm_num) (by push_cast; norm_num) (by push_cast; norm_num))
      (clog_eq_of (by norm_num) (by norm_num) (by norm_num) (by norm_num)), rfl, rfl, ?_⟩
    dsimp only
    rw [floatToSize_M (by push_cast; norm_num) (by push_cast; norm_num)
      (m := 3200) (by push_cast; norm_num)]
    decide
  · -- resize("500M", 8): shrink to 16 nodes
    refine ⟨_, uresize_shrink (K := 11) (c := 4)
      (by push_cast; norm_num [abs_lt, le_abs])
      (by push_cast; norm_num)
      (nceil_eq (by norm_num) (by push_cast; norm_num) (by push_cast; norm_num))
      (clog_eq_of (by norm_num) (by norm_num) (by norm_num) (by norm_num)), rfl, rfl, ?_⟩
    dsimp only
    rw [floatToSize_M (by push_cast; norm_num) (by push_cast; norm_num)
      (m := 3200) (by push_cast; norm_num)]
    decide
  · -- resize("500M", 16): refine zero times, keep 16 nodes
    refine ⟨_, uresize_grow_keep (i := 0)
      (by push_cast; norm_num [abs_lt, le_abs])
      (by push_cast; norm_num)
      (log_floor_eq (nfloor_eq (by push_cast; norm_num) (by push_cast; norm_num))
        (Nat.log_one_right _))
      (by push_cast; norm_num), rfl, rfl, ?_⟩
    dsimp only
    rw [floatToSize_M (by push_cast; norm_num) (by push_cast; norm_num)
      (m := 3200) (by push_cast; norm_num)]
    decide
  · -- resize("500M", 64): refine once, grow to 128 nodes
    refine ⟨_, uresize_grow_adjust (i := 0) (K := 2) (c := 7)
      (by push_cast; norm_num [abs_lt, le_abs])
      (by push_cast; norm_num)
      (log_floor_eq (k := 6) (nfloor_eq (by push_cast; norm_num) (by push_cast; norm_num))
        (Nat.log_eq_of_pow_le_of_lt_pow (by norm_num) (by norm_num)))
      (by push_cast; norm_num)
      (by push_cast; norm_num)
      (nceil_eq (by norm_num) (by push_cast; norm_num) (by push_cast; norm_num))
      (clog_eq_of (by norm_num) (by norm_num) (by norm_num) (by norm_num)), rfl, rfl, ?_⟩
    dsimp only
    rw [floatToSize_M (by push_cast; norm_num) (by push_cast; norm_num)
      (m := 3200) (by push_cast; norm_num)]
    decide
  · -- helpers2 on ("4.5G", 1): flat band accepts and returns "5.0G"
    refine ⟨_, uresize2_early (by push_cast; norm_num [abs_lt]), rfl, rfl, ?_⟩
    dsimp only
    rw [floatToSize_big (by push_cast; norm_num) (m := 50) (by push_cast; norm_num)]
    decide

/-- The accept condition of the early branch of the unstructured `resize`
of `helpers.py`: symmetric relative deviation below 1%, or a request
larger than the model within the 25% band. -/
def uresizeAccepts (T m : ℚ) (n : ℕ) : Prop :=
  |2 * (m * (n : ℚ) - T) / (T + m * (n : ℚ))| < 1 / 100 ∨
    (T < m * (n : ℚ) ∧ |2 * (m * (n : ℚ) - T) / (T + m * (n : ℚ))| < 25 / 100)

/-- C1 counterexample: with `dim = 3`, `total_mem = "5G"`, a request of
`"4.96G"` for one node enters the early-accept branch (`rel ≈ 0.008 <
0.01` with the model *larger* than the request) and returns `"5.0G"`,
exceeding the requested memory per node by about 0.8% — far beyond
floating rounding.  This refutes the claim that `resize` never exceeds
the target, and in particular that the early-accept branch returning
`total_mem / nnodes` never does. -/
theorem C1_overshoot_counterexample :
    sizeToFloat "4.96G" = some (496 / 100 * 1024 ^ 3) ∧
    (Resizer.unstructured 3 (5 * 1024 ^ 3)).resize (496 / 100 * 1024 ^ 3) 1 =
      some { nnodes := 1, mem_per_node := "5.0G",
             mem_raw := 5 * 1024 ^ 3 / ((1 : ℕ) : ℚ), nrefines := some 0 } ∧
    sizeToFloat "5.0G" = some (5 * 1024 ^ 3) ∧
    (496 / 100 * 1024 ^ 3 : ℚ) < 5 * 1024 ^ 3 := by
  refine ⟨?_, ?_, ?_, by norm_num⟩
  · refine sizeToFloat_eq_of_scan (p := ⟨4, 96, 2, 0, 'G'⟩) (by decide) ?_
    simp +decide [partsVal, qpow10, unitValue]
    norm_num
  · rw [uresize_early (Or.inl (by push_cast; norm_num [abs_lt]))]
    rw [floatToSize_big (by push_cast; norm_num) (m := 50) (by push_cast; norm_num)]
    simp +decide [OResult.mk.injEq]
  · refine sizeToFloat_eq_of_scan (p := ⟨5, 0, 1, 0, 'G'⟩) (by decide) ?_
    simp +decide [partsVal, qpow10, unitValue]

theorem pow_log_floor_le {T m : ℚ} {n : ℕ} {s : ℕ} (hT : 0 < T) (h2 : T < m * (n : ℚ)) :
    ((s ^ Nat.log s ⌊m * (n : ℚ) / T⌋₊ : ℕ) : ℚ) ≤ m * (n : ℚ) / T := by
  have hrto1 : 1 < m * (n : ℚ) / T := (one_lt_div hT).2 h2
  have hfl1 : ⌊m * (n : ℚ) / T⌋₊ ≠ 0 := by
    have h1 : 1 ≤ ⌊m * (n : ℚ) / T⌋₊ := Nat.le_floor (by exact_mod_cast hrto1.le)
    omega
  calc ((s ^ Nat.log s ⌊m * (n : ℚ) / T⌋₊ : ℕ) : ℚ)
      ≤ (⌊m * (n : ℚ) / T⌋₊ : ℚ) := by exact_mod_cast Nat.pow_log_le_self s hfl1
    _ ≤ m * (n : ℚ) / T := Nat.floor_le (by linarith)

theorem lt_pow_succ_log_floor {T m : ℚ} {n : ℕ} {s : ℕ} (hs : 1 < s) (hT : 0 < T)
    (h2 : T < m * (n : ℚ)) :
    m * (n : ℚ) / T < ((s ^ (Nat.log s ⌊m * (n : ℚ) / T⌋₊ + 1) : ℕ) : ℚ) := by
  have h4 := Nat.lt_pow_succ_log_self hs ⌊m * (n : ℚ) / T⌋₊
  have h5 : (⌊m * (n : ℚ) / T⌋₊ : ℚ) + 1 ≤
      ((s ^ (Nat.log s ⌊m * (n : ℚ) / T⌋₊ + 1) : ℕ) : ℚ) := by exact_mod_cast h4
  have h6 := Nat.lt_floor_add_one (m * (n : ℚ) / T)
  linarith

theorem adjust_bound {T m : ℚ} {n a : ℕ} (hm : 0 < m) (hnq : (0 : ℚ) < (n : ℚ))
    (hT : 0 < T) :
    T * (a : ℚ) / ((2 ^ Nat.clog 2 (⌈T * (a : ℚ) / (m * (n : ℚ))⌉₊ * n) : ℕ) : ℚ) ≤ m := by
  have h2c : (0 : ℚ) < ((2 ^ Nat.clog 2 (⌈T * (a : ℚ) / (m * (n : ℚ))⌉₊ * n) : ℕ) : ℚ) := by
    positivity
  rw [div_le_iff h2c]
  have hKb : T * (a : ℚ) / (m * (n : ℚ)) ≤ (⌈T * (a : ℚ) / (m * (n : ℚ))⌉₊ : ℚ) :=
    Nat.le_ceil _
  have hKn : ((⌈T * (a : ℚ) / (m * (n : ℚ))⌉₊ * n : ℕ) : ℚ) ≤
      ((2 ^ Nat.clog 2 (⌈T * (a : ℚ) / (m * (n : ℚ))⌉₊ * n) : ℕ) : ℚ) := by
    exact_mod_cast Nat.le_pow_clog one_lt_two _
  calc T * (a : ℚ)
      = T * (a : ℚ) / (m * (n : ℚ)) * (m * (n : ℚ)) := by field_simp
    _ ≤ (⌈T * (a : ℚ) / (m * (n : ℚ))⌉₊ : ℚ) * (m * (n : ℚ)) :=
        mul_le_mul_of_nonneg_right hKb (by positivity)
    _ = m * ((⌈T * (a : ℚ) / (m * (n : ℚ))⌉₊ * n : ℕ) : ℚ) := by push_cast; ring
    _ ≤ m * ((2 ^ Nat.clog 2 (⌈T * (a : ℚ) / (m * (n : ℚ))⌉₊ * n) : ℕ) : ℚ) :=
        mul_le_mul_of_nonneg_left hKn hm.le

theorem shrink_bound {T m : ℚ} (hm : 0 < m) (hT : 0 < T) :
    T / ((2 ^ Nat.clog 2 ⌈T / m⌉₊ : ℕ) : ℚ) ≤ m := by
  have h2c : (0 : ℚ) < ((2 ^ Nat.clog 2 ⌈T / m⌉₊ : ℕ) : ℚ) := by positivity
  rw [div_le_iff h2c]
  have hKb : T / m ≤ (⌈T / m⌉₊ : ℚ) := Nat.le_ceil _
  have hKn : ((⌈T / m⌉₊ : ℕ) : ℚ) ≤ ((2 ^ Nat.clog 2 ⌈T / m⌉₊ : ℕ) : ℚ) := by
    exact_mod_cast Nat.le_pow_clog one_lt_two _
  calc T = T / m * m := by field_simp
    _ ≤ (⌈T / m⌉₊ : ℚ) * m := mul_le_mul_of_nonneg_right hKb hm.le
    _ ≤ ((2 ^ Nat.clog 2 ⌈T / m⌉₊ : ℕ) : ℚ) * m := mul_le_mul_of_nonneg_right hKn hm.le
    _ = m * ((2 ^ Nat.clog 2 ⌈T / m⌉₊ : ℕ) : ℚ) := by ring

/-- C1 amended: for every `dim ≥ 1`, `total_mem > 0`, target `m > 0` and
`nnodes ≥ 1`, the unstructured `resize` succeeds (its internal assertion
never fires) and the memory per node it computes (the value before string
formatting, recorded in `mem_raw`) exceeds the target by at most the
factor `201/199 ≈ 1.005` — and outside the early-accept branch it never
exceeds the target at all.  (The claim's universal `≤ m` fails only in the
early-accept branch, by up to ≈1%: see `C1_overshoot_counterexample`.) -/
theorem C1_non_overshoot_amended (dim : ℕ) (T m : ℚ) (n : ℕ)
    (hdim : 1 ≤ dim) (hT : 0 < T) (hm : 0 < m) (hn : 1 ≤ n) :
    ∃ r, (Resizer.unstructured dim T).resize m n = some r ∧
      199 * r.mem_raw ≤ 201 * m ∧ (¬ uresizeAccepts T m n → r.mem_raw ≤ m) := by
  have hnq : (0 : ℚ) < (n : ℚ) := by
    have : 0 < n := hn
    exact_mod_cast this
  by_cases hacc : uresizeAccepts T m n
  · refine ⟨_, uresize_early hacc, ?_, fun hno => absurd hacc hno⟩
    dsimp only
    rcases hacc with h | ⟨hlt, h2⟩
    · rcases le_or_lt T (m * (n : ℚ)) with hle | hgt
      · have hb : T / (n : ℚ) ≤ m := by
          rw [div_le_iff hnq]
          exact hle
        nlinarith
      · have hden : (0 : ℚ) < T + m * (n : ℚ) := by positivity
        rw [abs_lt] at h
        have h3 : -(1 / 100) * (T + m * (n : ℚ)) < 2 * (m * (n : ℚ) - T) :=
          (lt_div_iff hden).1 h.1
        rw [show (199 : ℚ) * (T / (n : ℚ)) = 199 * T / (n : ℚ) from by ring,
          div_le_iff hnq]
        nlinarith
    · have hb : T / (n : ℚ) < m := by
        rw [div_lt_iff hnq]
        exact hlt
      nlinarith
  · have hs2 : 1 < 2 ^ dim := by
      calc 1 < 2 := one_lt_two
        _ = 2 ^ 1 := (pow_one 2).symm
        _ ≤ 2 ^ dim := Nat.pow_le_pow_right (by omega) hdim
    by_cases h2 : T < m * (n : ℚ)
    · have hkey1 := pow_log_floor_le (s := 2 ^ dim) hT h2
      by_cases h3 :
          T * (((2 ^ dim) ^ Nat.log (2 ^ dim) ⌊m * (n : ℚ) / T⌋₊ : ℕ) : ℚ) / (n : ℚ) * 2 < m
      · have hkey2 := lt_pow_succ_log_floor hs2 hT h2
        have hc4 : m < T * (((2 ^ dim) ^ (Nat.log (2 ^ dim) ⌊m * (n : ℚ) / T⌋₊ + 1) : ℕ) : ℚ) /
            (n : ℚ) := by
          rw [lt_div_iff hnq]
          calc m * (n : ℚ) = m * (n : ℚ) / T * T := by field_simp
            _ < (((2 ^ dim) ^ (Nat.log (2 ^ dim) ⌊m * (n : ℚ) / T⌋₊ + 1) : ℕ) : ℚ) * T :=
                mul_lt_mul_of_pos_right hkey2 hT
            _ = T * (((2 ^ dim) ^ (Nat.log (2 ^ dim) ⌊m * (n : ℚ) / T⌋₊ + 1) : ℕ) : ℚ) := by
                ring
        refine ⟨_, uresize_grow_adjust hacc h2 rfl h3 hc4 rfl rfl, ?_, ?_⟩ <;> dsimp only
        · have := adjust_bound (a := (2 ^ dim) ^ (Nat.log (2 ^ dim) ⌊m * (n : ℚ) / T⌋₊ + 1))
            hm hnq hT
          nlinarith
        · intro _
          exact adjust_bound hm hnq hT
      · have hb : T * (((2 ^ dim) ^ Nat.log (2 ^ dim) ⌊m * (n : ℚ) / T⌋₊ : ℕ) : ℚ) /
            (n : ℚ) ≤ m := by
          rw [div_le_iff hnq]
          calc T * (((2 ^ dim) ^ Nat.log (2 ^ dim) ⌊m * (n : ℚ) / T⌋₊ : ℕ) : ℚ)
              = (((2 ^ dim) ^ Nat.log (2 ^ dim) ⌊m * (n : ℚ) / T⌋₊ : ℕ) : ℚ) * T := by ring
            _ ≤ m * (n : ℚ) / T * T := mul_le_mul_of_nonneg_right hkey1 hT.le
            _ = m * (n : ℚ) := by field_simp
        refine ⟨_, uresize_grow_keep hacc h2 rfl h3, ?_, fun _ => ?_⟩ <;> dsimp only
        · nlinarith
        · exact hb
    · refine ⟨_, uresize_shrink hacc h2 rfl rfl, ?_, fun _ => ?_⟩ <;> dsimp only
      · have := shrink_bound hm hT
        nlinarith
      · exact shrink_bound hm hT

/-- Witness for `C1_non_overshoot_amended` at
`dim = 3, total_mem = 5G, m = 500M, n = 1`. -/
theorem C1_non_overshoot_amended_witness :
    (1 ≤ 3 ∧ (0 : ℚ) < 5 * 1024 ^ 3 ∧ (0 : ℚ) < 500 * 1024 ^ 2 ∧ 1 ≤ 1) ∧
      ∃ r, (Resizer.unstructured 3 (5 * 1024 ^ 3)).resize (500 * 1024 ^ 2) 1 = some r ∧
        199 * r.mem_raw ≤ 201 * (500 * 1024 ^ 2) ∧
        (¬ uresizeAccepts (5 * 1024 ^ 3) (500 * 1024 ^ 2) 1 → r.mem_raw ≤ 500 * 1024 ^ 2) :=
  ⟨⟨by norm_num, by norm_num, by norm_num, le_rfl⟩,
    C1_non_overshoot_amended 3 (5 * 1024 ^ 3) (500 * 1024 ^ 2) 1
      (by norm_num) (by norm_num) (by norm_num) le_rfl⟩

/-! ## Structured resize (C5) and `next` (C7) -/

theorem iroot_pow_le {d : ℕ} (hd : 1 ≤ d) {q : ℚ} (hq : 0 ≤ q) :
    ((iroot d q : ℕ) : ℚ) ^ d ≤ q := by
  rw [iroot]
  have key : ∀ (l : List ℕ) (acc : ℕ), ((acc : ℚ)) ^ d ≤ q →
      ((l.foldl (fun (acc k : ℕ) => if (k : ℚ) ^ d ≤ q then k else acc) acc : ℕ) : ℚ) ^ d ≤ q := by
    intro l
    induction l with
    | nil => intro acc h; exact h
    | cons x xs ih =>
      intro acc h
      rw [List.foldl_cons]
      by_cases hx : (x : ℚ) ^ d ≤ q
      · rw [if_pos hx]; exact ih x hx
      · rw [if_neg hx]; exact ih acc h
  apply key
  rw [Nat.cast_zero, zero_pow (by omega)]
  exact hq

theorem iroot_ge {d : ℕ} {q : ℚ} :
    ∀ (N j : ℕ), j ≤ N → ((j : ℚ)) ^ d ≤ q →
      j ≤ (List.range (N + 1)).foldl (fun (acc k : ℕ) => if (k : ℚ) ^ d ≤ q then k else acc) 0 := by
  intro N
  induction N with
  | zero =>
    intro j hj _
    omega
  | succ N ih =>
    intro j hj hP
    rw [List.range_succ, List.foldl_append]
    by_cases hN : ((N + 1 : ℕ) : ℚ) ^ d ≤ q
    · simp only [List.foldl_cons, List.foldl_nil, if_pos hN]
      omega
    · simp only [List.foldl_cons, List.foldl_nil, if_neg hN]
      rcases Nat.lt_or_ge j (N + 1) with hj2 | hj2
      · exact ih j (by omega) hP
      · have hje : j = N + 1 := by omega
        subst hje
        exact absurd hP hN

/-- `iroot d q` is maximal: together with `iroot_pow_le` this is exactly
the floor of the real `d`-th root of `q`. -/
theorem iroot_max {d : ℕ} (hd : 1 ≤ d) {q : ℚ} (hq : 0 ≤ q) :
    ¬ ((iroot d q + 1 : ℕ) : ℚ) ^ d ≤ q := by
  intro hP
  have hle : ((iroot d q + 1 : ℕ) : ℚ) ≤ q := by
    calc ((iroot d q + 1 : ℕ) : ℚ) ≤ ((iroot d q + 1 : ℕ) : ℚ) ^ d :=
          le_self_pow (by exact_mod_cast Nat.le_add_left 1 (iroot d q)) (by omega)
      _ ≤ q := hP
  have hfl : iroot d q + 1 ≤ ⌊q⌋₊ := Nat.le_floor hle
  have hge : iroot d q + 1 ≤ iroot d q :=
    iroot_ge (d := d) (q := q) ⌊q⌋₊ (iroot d q + 1) hfl hP
  omega

/-- C5: the structured resizer computes exactly
`bytes_per_cell * floor((m / bytes_per_cell)^(1/dim))^dim` (with the floor
root taken exactly, never rounded up) and never exceeds the target. -/
theorem C5_structured_resize (grid : List ℕ) (total_mem m : ℚ) (n : ℕ)
    (hg : grid ≠ []) (hpos : ∀ x ∈ grid, 0 < x) (hT : 0 < total_mem) (hm : 0 < m)
    (hn : 1 ≤ n) :
    ∃ r, (Resizer.structured grid total_mem).resize m n = some r ∧
      r.mem_raw = total_mem / (grid.prod : ℚ) *
        ((iroot grid.length (m / (total_mem / (grid.prod : ℚ))) : ℕ) : ℚ) ^ grid.length ∧
      r.mem_raw ≤ m := by
  have hnc : 0 < grid.prod := List.prod_pos hpos
  have hncq : (0 : ℚ) < ((grid.prod : ℕ) : ℚ) := by exact_mod_cast hnc
  have hbpc : 0 < total_mem / ((grid.prod : ℕ) : ℚ) := by positivity
  have hd : 1 ≤ grid.length := List.length_pos.2 hg
  refine ⟨_, rfl, ?_, ?_⟩
  · dsimp only
    rw [List.prod_replicate]
    push_cast
    ring
  · dsimp only
    rw [List.prod_replicate]
    have hroot := iroot_pow_le hd
      (q := m / (total_mem / ((grid.prod : ℕ) : ℚ))) (by positivity)
    calc total_mem / ((grid.prod : ℕ) : ℚ) *
          (((iroot grid.length (m / (total_mem / ((grid.prod : ℕ) : ℚ))) ^ grid.length : ℕ)) : ℚ)
        = total_mem / ((grid.prod : ℕ) : ℚ) *
            (((iroot grid.length (m / (total_mem / ((grid.prod : ℕ) : ℚ))) : ℕ) : ℚ) ^
              grid.length) := by push_cast; ring
      _ ≤ total_mem / ((grid.prod : ℕ) : ℚ) * (m / (total_mem / ((grid.prod : ℕ) : ℚ))) :=
          mul_le_mul_of_nonneg_left hroot hbpc.le
      _ = m := by
          rw [← mul_div_assoc]
          exact mul_div_cancel_left₀ m (ne_of_gt hbpc)

/-- Witness for `C5_structured_resize` at `grid = [10, 10]`,
`total_mem = 1000`, `m = 40`, `n = 1`. -/
theorem C5_structured_resize_witness :
    (([10, 10] : List ℕ) ≠ [] ∧ (∀ x ∈ ([10, 10] : List ℕ), 0 < x) ∧
      (0 : ℚ) < 1000 ∧ (0 : ℚ) < 40 ∧ 1 ≤ 1) ∧
      ∃ r, (Resizer.structured [10, 10] 1000).resize 40 1 = some r ∧
        r.mem_raw = 1000 / ((([10, 10] : List ℕ).prod : ℚ)) *
          ((iroot 2 (40 / (1000 / (([10, 10] : List ℕ).prod : ℚ))) : ℕ) : ℚ) ^ 2 ∧
        r.mem_raw ≤ 40 :=
  ⟨⟨by decide, by decide, by norm_num, by norm_num, le_rfl⟩,
    C5_structured_resize [10, 10] 1000 40 1 (by decide) (by decide)
      (by norm_num) (by norm_num) le_rfl⟩

theorem getD_set_eq {l : List ℕ} {i : ℕ} (h : i < l.length) (a : ℕ) :
    (l.set i a).getD i 0 = a := by
  rw [List.getD_eq_getElem (l.set i a) 0 (by rw [List.length_set]; exact h)]
  exact List.getElem_set_self _

/-- C7: `next` of both resizer kinds strictly increases `nnodes`
(doubling it for the structured kind, multiplying by `stride = 2^dim` for
the unstructured kind), doubles exactly the grid axis at the round-robin
cursor and advances the cursor modulo `dim` (structured), increments
`nrefines` (unstructured), and leaves every other field unchanged; being
pure functions of the input record, neither mutates its argument. -/
theorem C7_next_monotonic :
    (∀ (grid : List ℕ) (tm : ℚ) (r : OResult) (g : List ℕ) (idx : ℕ),
      r.grid = some g → r.index_ = some idx → idx < g.length → 1 ≤ r.nnodes →
      ∃ r', (Resizer.structured grid tm).next r = some r' ∧
        r'.nnodes = r.nnodes * 2 ∧ r.nnodes < r'.nnodes ∧
        r'.grid = some (g.set idx (g.getD idx 0 * 2)) ∧
        (g.set idx (g.getD idx 0 * 2)).getD idx 0 = g.getD idx 0 * 2 ∧
        r'.index_ = some ((idx + 1) % grid.length) ∧
        r'.mem_per_node = r.mem_per_node ∧ r'.nrefines = r.nrefines) ∧
    (∀ (dim : ℕ) (tm : ℚ) (r : OResult) (k : ℕ),
      r.nrefines = some k → 1 ≤ dim → 1 ≤ r.nnodes →
      ∃ r', (Resizer.unstructured dim tm).next r = some r' ∧
        r'.nnodes = r.nnodes * 2 ^ dim ∧ r.nnodes < r'.nnodes ∧
        r'.nrefines = some (k + 1) ∧ r'.mem_per_node = r.mem_per_node ∧
        r'.grid = r.grid ∧ r'.index_ = r.index_) := by
  constructor
  · intro grid tm r g idx hg hidx hlt hn
    have hnext : (Resizer.structured grid tm).next r =
        some { r with
                nnodes := r.nnodes * 2
                grid := some (g.set idx (g.getD idx 0 * 2))
                index_ := some ((idx + 1) % grid.length) } := by
      simp only [Resizer.next, hg, hidx]
    refine ⟨_, hnext, rfl, ?_, rfl, getD_set_eq hlt _, rfl, rfl, rfl⟩
    show r.nnodes < r.nnodes * 2
    omega
  · intro dim tm r k hk hdim hn
    have hnext : (Resizer.unstructured dim tm).next r =
        some { r with nnodes := r.nnodes * 2 ^ dim, nrefines := some (k + 1) } := by
      simp only [Resizer.next, hk]
    refine ⟨_, hnext, rfl, ?_, rfl, rfl, rfl, rfl⟩
    show r.nnodes < r.nnodes * 2 ^ dim
    have h2 : 2 ≤ 2 ^ dim := by
      calc 2 = 2 ^ 1 := (pow_one 2).symm
        _ ≤ 2 ^ dim := Nat.pow_le_pow_right (by omega) hdim
    calc r.nnodes = r.nnodes * 1 := (Nat.mul_one _).symm
      _ < r.nnodes * 2 ^ dim := mul_lt_mul_of_pos_left (by omega) (by omega)

/-- Witness for `C7_next_monotonic` (it quantifies only over inputs, but
its parts carry hypotheses): both parts applied at concrete inputs. -/
theorem C7_next_monotonic_witness :
    (∃ r', (Resizer.structured [4, 4] 1000).next
        { nnodes := 2, mem_per_node := "62.5", grid := some [8, 4], index_ := some 1 } =
          some r' ∧
        r'.nnodes = 4 ∧ r'.grid = some [8, 8] ∧ r'.index_ = some 0) ∧
    (∃ r', (Resizer.unstructured 3 1000).next
        { nnodes := 2, mem_per_node := "125.0", nrefines := some 1 } = some r' ∧
        r'.nnodes = 16 ∧ r'.nrefines = some 2) := by
  constructor
  · obtain ⟨r', h1, h2, _, h4, _, h6, _, _⟩ :=
      C7_next_monotonic.1 [4, 4] 1000
        { nnodes := 2, mem_per_node := "62.5", grid := some [8, 4], index_ := some 1 }
        [8, 4] 1 rfl rfl (by decide) (by decide)
    exact ⟨r', h1, h2, by rw [h4]; decide, by rw [h6]; decide⟩
  · obtain ⟨r', h1, h2, _, h4, _, _, _⟩ :=
      C7_next_monotonic.2 3 1000
        { nnodes := 2, mem_per_node := "125.0", nrefines := some 1 } 1 rfl
        (by decide) (by decide)
    exact ⟨r', h1, h2, h4⟩

/-! ## `OmniModelResizer` lemmas -/

/-- A fixed model matching the fixed pass of `OmniModelResizer.resize`:
exact node count and size ratio in `(0.8, 1]` of the request. -/
def matchesFixedResize (req : ℚ) (n : ℕ) (fm : FixedModel) : Prop :=
  ∃ v, sizeToFloat fm.mem_per_node = some v ∧ fm.nnodes = n ∧
    8 / 10 < v / req ∧ v / req ≤ 1

theorem collectFixedResize_spec (req : ℚ) (n : ℕ) :
    ∀ (fms : List FixedModel),
      (∀ fm ∈ fms, (sizeToFloat fm.mem_per_node).isSome) →
      ∃ l, collectFixedResize req n fms = .ok l ∧
        ∀ fm, fm ∈ l ↔ fm ∈ fms ∧ matchesFixedResize req n fm := by
  intro fms
  induction fms with
  | nil => intro _; exact ⟨[], rfl, by simp⟩
  | cons fm rest ih =>
    intro hall
    obtain ⟨l, hl, hiff⟩ := ih (fun f hf => hall f (by simp [hf]))
    obtain ⟨v, hv⟩ := Option.isSome_iff_exists.1 (hall fm (by simp))
    rw [collectFixedResize, hv, hl]
    dsimp only [Except.map]
    by_cases hmatch : fm.nnodes = n ∧ 8 / 10 < v / req ∧ v / req ≤ 1
    · rw [if_pos hmatch]
      refine ⟨fm :: l, rfl, ?_⟩
      intro f
      constructor
      · intro hf
        rcases List.mem_cons.1 hf with rfl | h1
        · exact ⟨List.mem_cons_self _ _, v, hv, hmatch⟩
        · obtain ⟨h2, h3⟩ := (hiff f).1 h1
          exact ⟨List.mem_cons_of_mem _ h2, h3⟩
      · rintro ⟨hmem, hm⟩
        rcases List.mem_cons.1 hmem with rfl | h1
        · exact List.mem_cons_self _ _
        · exact List.mem_cons_of_mem _ ((hiff f).2 ⟨h1, hm⟩)
    · rw [if_neg hmatch]
      refine ⟨l, rfl, ?_⟩
      intro f
      rw [hiff f]
      constructor
      · rintro ⟨h1, h2⟩
        exact ⟨List.mem_cons_of_mem _ h1, h2⟩
      · rintro ⟨hmem, hm⟩
        rcases List.mem_cons.1 hmem with rfl | h1
        · obtain ⟨v', hv', hm'⟩ := hm
          rw [hv, Option.some_inj] at hv'
          subst hv'
          exact absurd hm' hmatch
        · exact ⟨h1, hm⟩

theorem maxByKey_mem {α : Type} (key : α → ℚ) :
    ∀ (l : List α) (a : α), maxByKey key a l ∈ a :: l := by
  intro l
  induction l with
  | nil => intro a; exact List.mem_singleton.2 rfl
  | cons x xs ih =>
    intro a
    rw [maxByKey]
    by_cases h : key a < key x
    · rw [if_pos h]
      rcases List.mem_cons.1 (ih x) with h1 | h1
      · rw [h1]; simp
      · simp [h1]
    · rw [if_neg h]
      rcases List.mem_cons.1 (ih a) with h1 | h1
      · rw [h1]; simp
      · simp [h1]

theorem maxByKey_ge {α : Type} (key : α → ℚ) :
    ∀ (l : List α) (a : α) (y : α), y ∈ a :: l → key y ≤ key (maxByKey key a l) := by
  intro l
  induction l with
  | nil =>
    intro a y hy
    rw [List.mem_singleton] at hy
    subst hy
    exact le_rfl
  | cons x xs ih =>
    intro a y hy
    rw [maxByKey]
    have hbase : key a ≤ key (if key a < key x then x else a) ∧
        key x ≤ key (if key a < key x then x else a) := by
      by_cases h : key a < key x
      · rw [if_pos h]; exact ⟨h.le, le_rfl⟩
      · rw [if_neg h]; exact ⟨le_rfl, not_lt.1 h⟩
    rcases List.mem_cons.1 hy with rfl | hy1
    · exact le_trans hbase.1 (ih _ _ (List.mem_cons_self _ _))
    · rcases List.mem_cons.1 hy1 with rfl | hy2
      · exact le_trans hbase.2 (ih _ _ (List.mem_cons_self _ _))
      · exact ih _ y (List.mem_cons_of_mem _ hy2)

/-- C4: when a fixed model matches exactly (`nnodes` equal, size ratio in
`(0.8, 1]`), `OmniModelResizer.resize` returns a copy of the
largest-ratio matching fixed model and never consults any resizer (the
result is invariant under replacing the resizer list); and in the
concrete scenario of the claim — one fixed model `{nnodes: 4,
mem_per_node: "1G"}` and an unstructured resizer (`dim = 3`,
`total_mem = 3.6G`) that resizes `("1G", 4)` to 4 nodes at `0.9G` — the
fixed model is returned. -/
theorem C4_fixed_model_preference :
    (∀ (om : OmniModelResizer) (req : ℚ) (n : ℕ),
      (∀ fm ∈ om.fixed_models, (sizeToFloat fm.mem_per_node).isSome) →
      (∃ fm ∈ om.fixed_models, matchesFixedResize req n fm) →
      ∃ fm v, omniResize om req n = .ok (fm.toOResult v) ∧ fm ∈ om.fixed_models ∧
        sizeToFloat fm.mem_per_node = some v ∧ fm.nnodes = n ∧
        8 / 10 < v / req ∧ v / req ≤ 1 ∧
        (∀ fm' v', fm' ∈ om.fixed_models → sizeToFloat fm'.mem_per_node = some v' →
          fm'.nnodes = n → 8 / 10 < v' / req → v' / req ≤ 1 → v' / req ≤ v / req) ∧
        (∀ rs, omniResize ⟨om.fixed_models, rs⟩ req n = omniResize om req n)) ∧
    (∃ v, sizeToFloat "1G" = some v ∧
      omniResize ⟨[⟨4, "1G"⟩], [.unstructured 3 (36 / 10 * 1024 ^ 3)]⟩ v 4 =
        .ok ((⟨4, "1G"⟩ : FixedModel).toOResult v) ∧
      ∃ r, (Resizer.unstructured 3 (36 / 10 * 1024 ^ 3)).resize v 4 = some r ∧
        r.nnodes = 4 ∧ sizeToFloat r.mem_per_node = some (9 / 10 * 1024 ^ 3)) := by
  constructor
  · intro om req n hall hex
    obtain ⟨l, hl, hiff⟩ := collectFixedResize_spec req n om.fixed_models hall
    obtain ⟨fm0, hfm0, hm0⟩ := hex
    have hmem0 : fm0 ∈ l := (hiff fm0).2 ⟨hfm0, hm0⟩
    cases hcl : l with
    | nil =>
      rw [hcl] at hmem0
      cases hmem0
    | cons c rest =>
      rw [hcl] at hl hiff
      have hbestmem := maxByKey_mem
        (fun f => (sizeToFloat f.mem_per_node).getD 0 / req) rest c
      obtain ⟨hbf, v, hbv, hbn, hbr1, hbr2⟩ :=
        (hiff (maxByKey (fun f => (sizeToFloat f.mem_per_node).getD 0 / req) c rest)).1
          hbestmem
      refine ⟨_, v, ?_, hbf, hbv, hbn, hbr1, hbr2, ?_, ?_⟩
      · rw [omniResize, hl]
        dsimp only
        rw [hbv]
        rfl
      · intro fm' v' hf1 hf2 hf3 hf4 hf5
        have hmem' : fm' ∈ c :: rest := (hiff fm').2 ⟨hf1, v', hf2, hf3, hf4, hf5⟩
        have hge := maxByKey_ge (fun f => (sizeToFloat f.mem_per_node).getD 0 / req)
          rest c fm' hmem'
        dsimp only at hge
        rw [hf2, hbv] at hge
        simpa using hge
      · intro rs
        rw [omniResize, omniResize]
        rw [show (⟨om.fixed_models, rs⟩ : OmniModelResizer).fixed_models =
          om.fixed_models from rfl, hl]
  · have hparse : sizeToFloat "1G" = some ((1024 : ℚ) ^ 3) :=
      sizeToFloat_eq_of_scan (p := ⟨1, 0, 0, 0, 'G'⟩) (by decide)
        (by simp +decide [partsVal, qpow10, unitValue])
    refine ⟨1024 ^ 3, hparse, ?_, ?_⟩
    · have hcoll : collectFixedResize (1024 ^ 3) 4
          (⟨[⟨4, "1G"⟩], [.unstructured 3 (36 / 10 * 1024 ^ 3)]⟩ :
            OmniModelResizer).fixed_models = .ok [⟨4, "1G"⟩] := by
        show collectFixedResize (1024 ^ 3) 4 [⟨4, "1G"⟩] = .ok [⟨4, "1G"⟩]
        simp only [collectFixedResize, hparse]
        dsimp only [Except.map]
        rw [if_pos ⟨trivial, by norm_num, by norm_num⟩]
      rw [omniResize, hcoll]
      dsimp only [maxByKey]
      rw [hparse]
      rfl
    · refine ⟨_, uresize_early (Or.inr ⟨by push_cast; norm_num,
        by push_cast; norm_num [abs_lt]⟩), rfl, ?_⟩
      dsimp only
      rw [floatToSize_M (by push_cast; norm_num) (by push_cast; norm_num)
        (m := 9216) (by push_cast; norm_num)]
      refine sizeToFloat_eq_of_scan (p := ⟨921, 6, 1, 0, 'M'⟩) (by decide) ?_
      simp +decide [partsVal, qpow10, unitValue]
      norm_num

/-- Witness for `C4_fixed_model_preference`: its general part applied to
the one-fixed-model catalog at the request `(1G, 4)`. -/
theorem C4_fixed_model_preference_witness :
    ∃ (fm : FixedModel) (v : ℚ),
      omniResize ⟨[⟨4, "1G"⟩], []⟩ (1024 ^ 3) 4 = .ok (fm.toOResult v) ∧
      fm ∈ ({ fixed_models := [⟨4, "1G"⟩], resizers := [] } :
        OmniModelResizer).fixed_models ∧
      sizeToFloat fm.mem_per_node = some v ∧ fm.nnodes = 4 ∧
      8 / 10 < v / 1024 ^ 3 ∧ v / 1024 ^ 3 ≤ 1 := by
  obtain ⟨fm, v, h1, h2, h3, h4, h5, h6, _, _⟩ :=
    C4_fixed_model_preference.1 ⟨[⟨4, "1G"⟩], []⟩ (1024 ^ 3) 4
      (by decide)
      ⟨⟨4, "1G"⟩, by decide, 1024 ^ 3,
        sizeToFloat_eq_of_scan (p := ⟨1, 0, 0, 0, 'G'⟩) (by decide)
          (by simp +decide [partsVal, qpow10, unitValue]),
        rfl, by norm_num, by norm_num⟩
  exact ⟨fm, v, h1, h2, h3, h4, h5, h6⟩

/-! ## `OmniModelResizer.next` lemmas -/

/-- A fixed model qualifying in the fixed pass of `OmniModelResizer.next`:
strictly more nodes and a size ratio in `(0.95, 1.05]` of the current
result. -/
def matchesFixedNext (curr : ℚ) (n : ℕ) (fm : FixedModel) : Prop :=
  ∃ v, sizeToFloat fm.mem_per_node = some v ∧ n < fm.nnodes ∧
    95 / 100 < v / curr ∧ v / curr ≤ 105 / 100

theorem collectFixedNext_spec (curr : ℚ) (n : ℕ) :
    ∀ (fms : List FixedModel),
      (∀ fm ∈ fms, (sizeToFloat fm.mem_per_node).isSome) →
      ∃ l, collectFixedNext curr n fms = .ok l ∧
        ∀ fm, fm ∈ l ↔ fm ∈ fms ∧ matchesFixedNext curr n fm := by
  intro fms
  induction fms with
  | nil => intro _; exact ⟨[], rfl, by simp⟩
  | cons fm rest ih =>
    intro hall
    obtain ⟨l, hl, hiff⟩ := ih (fun f hf => hall f (by simp [hf]))
    obtain ⟨v, hv⟩ := Option.isSome_iff_exists.1 (hall fm (by simp))
    rw [collectFixedNext, hv, hl]
    dsimp only [Except.map]
    by_cases hmatch : n < fm.nnodes ∧ 95 / 100 < v / curr ∧ v / curr ≤ 105 / 100
    · rw [if_pos hmatch]
      refine ⟨fm :: l, rfl, ?_⟩
      intro f
      constructor
      · intro hf
        rcases List.mem_cons.1 hf with rfl | h1
        · exact ⟨List.mem_cons_self _ _, v, hv, hmatch⟩
        · obtain ⟨h2, h3⟩ := (hiff f).1 h1
          exact ⟨List.mem_cons_of_mem _ h2, h3⟩
      · rintro ⟨hmem, hm⟩
        rcases List.mem_cons.1 hmem with rfl | h1
        · exact List.mem_cons_self _ _
        · exact List.mem_cons_of_mem _ ((hiff f).2 ⟨h1, hm⟩)
    · rw [if_neg hmatch]
      refine ⟨l, rfl, ?_⟩
      intro f
      rw [hiff f]
      constructor
      · rintro ⟨h1, h2⟩
        exact ⟨List.mem_cons_of_mem _ h1, h2⟩
      · rintro ⟨hmem, hm⟩
        rcases List.mem_cons.1 hmem with rfl | h1
        · obtain ⟨v', hv', hm'⟩ := hm
          rw [hv, Option.some_inj] at hv'
          subst hv'
          exact absurd hm' hmatch
        · exact ⟨h1, hm⟩

/-- A resizer qualifying in the probe pass of `OmniModelResizer.next`:
some probe at `2, 4, 8` times the current node count yields strictly more
nodes within the `[0.95, 1.05]` size band. -/
def probeQualifies (rz : Resizer) (curr : ℚ) (n : ℕ) : Prop :=
  ∃ k ∈ ([2, 4, 8] : List ℕ), ∃ r v, rz.resize curr (n * k) = some r ∧
    sizeToFloat r.mem_per_node = some v ∧
    (n < r.nnodes ∧ 95 / 100 ≤ v / curr ∧ v / curr ≤ 105 / 100)

/-- A collected probe hit: strictly more nodes, size in the
`[0.95, 1.05]` band of the current result. -/
def probeHitOK (curr : ℚ) (n : ℕ) (m : OResult) : Prop :=
  ∃ v, sizeToFloat m.mem_per_node = some v ∧ n < m.nnodes ∧
    95 / 100 ≤ v / curr ∧ v / curr ≤ 105 / 100

theorem probeOne_spec (rz : Resizer) (i : ℕ) (curr : ℚ) (n : ℕ) :
    ∀ ks : List ℕ,
      (∀ k ∈ ks, ∃ r, rz.resize curr (n * k) = some r ∧
        (sizeToFloat r.mem_per_node).isSome) →
      ∃ o, probeOne rz i curr n ks = .ok o ∧
        (o = none ↔ ∀ k ∈ ks, ∀ r v, rz.resize curr (n * k) = some r →
          sizeToFloat r.mem_per_node = some v →
          ¬(n < r.nnodes ∧ 95 / 100 ≤ v / curr ∧ v / curr ≤ 105 / 100)) ∧
        ∀ m, o = some m → ∃ k ∈ ks, ∃ r v, rz.resize curr (n * k) = some r ∧
          m = { r with resizer_id_ := some i } ∧
          sizeToFloat r.mem_per_node = some v ∧ n < r.nnodes ∧
          95 / 100 ≤ v / curr ∧ v / curr ≤ 105 / 100 := by
  intro ks
  induction ks with
  | nil =>
    intro _
    exact ⟨none, rfl, by simp, by simp⟩
  | cons k ks ih =>
    intro hall
    obtain ⟨r, hr, hsome⟩ := hall k (by simp)
    obtain ⟨v, hv⟩ := Option.isSome_iff_exists.1 hsome
    by_cases hq : n < r.nnodes ∧ 95 / 100 ≤ v / curr ∧ v / curr ≤ 105 / 100
    · refine ⟨some { r with resizer_id_ := some i }, ?_, ?_, ?_⟩
      · rw [probeOne, hr]
        dsimp only
        rw [hv]
        dsimp only
        rw [if_pos hq]
      · constructor
        · intro h
          cases h
        · intro h
          exact absurd hq (h k (by simp) r v hr hv)
      · intro m hm
        refine ⟨k, by simp, r, v, hr, (Option.some_inj.1 hm).symm, hv, hq⟩
    · obtain ⟨o, ho, hiff, hsome'⟩ := ih (fun k' hk' => hall k' (by simp [hk']))
      refine ⟨o, ?_, ?_, ?_⟩
      · rw [probeOne, hr]
        dsimp only
        rw [hv]
        dsimp only
        rw [if_neg hq, ho]
      · constructor
        · intro h k' hk' r' v' hr' hv'
          rcases List.mem_cons.1 hk' with rfl | hk2
          · rw [hr, Option.some_inj] at hr'
            subst hr'
            rw [hv, Option.some_inj] at hv'
            subst hv'
            exact hq
          · exact hiff.1 h k' hk2 r' v' hr' hv'
        · intro h
          exact hiff.2 (fun k' hk2 => h k' (List.mem_cons_of_mem _ hk2))
      · intro m hm
        obtain ⟨k', hk', rest⟩ := hsome' m hm
        exact ⟨k', List.mem_cons_of_mem _ hk', rest⟩

theorem collectProbes_spec (curr : ℚ) (n : ℕ) :
    ∀ (rzs : List Resizer) (i : ℕ),
      (∀ rz ∈ rzs, ∀ k ∈ ([2, 4, 8] : List ℕ), ∃ r,
        rz.resize curr (n * k) = some r ∧ (sizeToFloat r.mem_per_node).isSome) →
      ∃ l, collectProbes curr n i rzs = .ok l ∧
        (l = [] ↔ ∀ rz ∈ rzs, ¬ probeQualifies rz curr n) ∧
        ∀ m ∈ l, probeHitOK curr n m := by
  intro rzs
  induction rzs with
  | nil =>
    intro i _
    exact ⟨[], rfl, by simp, by simp⟩
  | cons rz rest ih =>
    intro i hall
    obtain ⟨o, ho, hoiff, hosome⟩ := probeOne_spec rz i curr n [2, 4, 8]
      (hall rz (by simp))
    obtain ⟨l, hl, hliff, lhits⟩ := ih (i + 1) (fun rz' h' => hall rz' (by simp [h']))
    cases o with
    | none =>
      refine ⟨l, ?_, ?_, lhits⟩
      · simp only [collectProbes, ho, hl]
      · constructor
        · intro he rz' hrz'
          rcases List.mem_cons.1 hrz' with rfl | h2
          · rintro ⟨k, hk, r, v, hr, hv, hcond⟩
            exact hoiff.1 rfl k hk r v hr hv hcond
          · exact hliff.1 he rz' h2
        · intro h
          exact hliff.2 (fun rz' h2 => h rz' (List.mem_cons_of_mem _ h2))
    | some m =>
      refine ⟨m :: l, ?_, ?_, ?_⟩
      · simp only [collectProbes, ho, hl]
        rfl
      · constructor
        · intro he
          exact absurd he (by simp)
        · intro h
          obtain ⟨k, hk, r, v, hr, hmeq, hv, h1, h2, h3⟩ := hosome m rfl
          exact absurd ⟨k, hk, r, v, hr, hv, h1, h2, h3⟩ (h rz (by simp))
      · intro m' hm'
        rcases List.mem_cons.1 hm' with rfl | h2
        · obtain ⟨k, hk, r, v, hr, hmeq, hv, h1, h2, h3⟩ := hosome m' rfl
          refine ⟨v, ?_, ?_, h2, h3⟩
          · rw [hmeq]
            exact hv
          · rw [hmeq]
            exact h1
        · exact lhits m' h2

theorem minByKeyPaired_spec {α : Type} :
    ∀ (l : List (α × ℚ)) (p : α × ℚ),
      ∃ q, q ∈ p :: l ∧ minByKeyPaired p l = q.1 ∧ ∀ q' ∈ p :: l, q.2 ≤ q'.2 := by
  intro l
  induction l with
  | nil =>
    intro p
    refine ⟨p, by simp, rfl, ?_⟩
    intro q' hq'
    rw [List.mem_singleton] at hq'
    rw [hq']
  | cons x xs ih =>
    intro p
    obtain ⟨q, hqmem, hqeq, hqmin⟩ := ih (if x.2 < p.2 then x else p)
    have hle : (if x.2 < p.2 then x else p).2 ≤ p.2 ∧
        (if x.2 < p.2 then x else p).2 ≤ x.2 := by
      by_cases h : x.2 < p.2
      · rw [if_pos h]
        exact ⟨h.le, le_rfl⟩
      · rw [if_neg h]
        exact ⟨le_rfl, not_lt.1 h⟩
    have hmem2 : q ∈ p :: x :: xs := by
      rcases List.mem_cons.1 hqmem with h1 | h2
      · rw [h1]
        by_cases h : x.2 < p.2
        · rw [if_pos h]
          exact List.mem_cons_of_mem _ (List.mem_cons_self _ _)
        · rw [if_neg h]
          exact List.mem_cons_self _ _
      · exact List.mem_cons_of_mem _ (List.mem_cons_of_mem _ h2)
    have hmin2 : ∀ q' ∈ p :: x :: xs, q.2 ≤ q'.2 := by
      intro q' hq'
      rcases List.mem_cons.1 hq' with h1 | h2
      · rw [h1]
        exact le_trans (hqmin _ (List.mem_cons_self _ _)) hle.1
      · rcases List.mem_cons.1 h2 with h3 | h4
        · rw [h3]
          exact le_trans (hqmin _ (List.mem_cons_self _ _)) hle.2
        · exact hqmin q' (List.mem_cons_of_mem _ h4)
    exact ⟨q, hmem2, hqeq, hmin2⟩

theorem computeNextDevs_spec (curr : ℚ) :
    ∀ l : List OResult,
      (∀ m ∈ l, (sizeToFloat m.mem_per_node).isSome) →
      ∃ ds, computeNextDevs curr l = .ok ds ∧ ds.map Prod.fst = l ∧
        ∀ p ∈ ds, ∃ v, sizeToFloat p.1.mem_per_node = some v ∧
          p.2 = 1 - v / curr := by
  intro l
  induction l with
  | nil =>
    intro _
    exact ⟨[], rfl, rfl, by simp⟩
  | cons m rest ih =>
    intro hall
    obtain ⟨v, hv⟩ := Option.isSome_iff_exists.1 (hall m (by simp))
    obtain ⟨ds, hds, hmap, hprops⟩ := ih (fun m' h' => hall m' (by simp [h']))
    refine ⟨(m, 1 - v / curr) :: ds, ?_, ?_, ?_⟩
    · simp only [computeNextDevs, hv, hds]
      rfl
    · simp [hmap]
    · intro p hp
      rcases List.mem_cons.1 hp with h1 | h2
      · rw [h1]
        exact ⟨v, hv, rfl⟩
      · exact hprops p h2

/-- C6: on a fixed-origin result (`resizer_id_` = `none`),
`OmniModelResizer.next` raises the exhausted-sequence error
(`StopIteration`) exactly when no fixed model qualifies (strictly more
nodes, size ratio in `(0.95, 1.05]` of the current result) and no resizer
probed at `2, 4, 8` times the current node count qualifies (strictly more
nodes, size ratio in `[0.95, 1.05]`); when a fixed model qualifies the
smallest-`nnodes` qualifier is returned, and when only a probe qualifies
the collected hit minimising the memory deviation `1 - mem/current` is
returned.  Hypotheses: every fixed-model size parses, and every probe's
resize succeeds with a parseable size. -/
theorem C6_next_exhausted
    (om : OmniModelResizer) (model : OResult) (curr : ℚ)
    (hid : model.resizer_id_ = none)
    (hcurr : sizeToFloat model.mem_per_node = some curr)
    (hfix : ∀ fm ∈ om.fixed_models, (sizeToFloat fm.mem_per_node).isSome)
    (hpr : ∀ rz ∈ om.resizers, ∀ k ∈ ([2, 4, 8] : List ℕ),
      ∃ r, rz.resize curr (model.nnodes * k) = some r ∧
        (sizeToFloat r.mem_per_node).isSome) :
    (omniNext om model = .error .exhausted ↔
      (∀ fm ∈ om.fixed_models, ¬ matchesFixedNext curr model.nnodes fm) ∧
      (∀ rz ∈ om.resizers, ¬ probeQualifies rz curr model.nnodes)) ∧
    ((∃ fm ∈ om.fixed_models, matchesFixedNext curr model.nnodes fm) →
      ∃ fm v, omniNext om model = .ok (fm.toOResult v) ∧ fm ∈ om.fixed_models ∧
        matchesFixedNext curr model.nnodes fm ∧
        sizeToFloat fm.mem_per_node = some v ∧
        ∀ fm' ∈ om.fixed_models, matchesFixedNext curr model.nnodes fm' →
          fm.nnodes ≤ fm'.nnodes) ∧
    ((∀ fm ∈ om.fixed_models, ¬ matchesFixedNext curr model.nnodes fm) →
      (∃ rz ∈ om.resizers, probeQualifies rz curr model.nnodes) →
      ∃ m v lp, omniNext om model = .ok m ∧
        collectProbes curr model.nnodes 0 om.resizers = .ok lp ∧ m ∈ lp ∧
        sizeToFloat m.mem_per_node = some v ∧ model.nnodes < m.nnodes ∧
        95 / 100 ≤ v / curr ∧ v / curr ≤ 105 / 100 ∧
        ∀ m' ∈ lp, ∀ v', sizeToFloat m'.mem_per_node = some v' →
          1 - v / curr ≤ 1 - v' / curr) := by
  obtain ⟨l, hl, hiff⟩ := collectFixedNext_spec curr model.nnodes om.fixed_models hfix
  cases l with
  | cons fm rest =>
    obtain ⟨q, hqmem, hqeq, hqmin⟩ :=
      minByKeyPaired_spec (rest.map fun f => (f, (f.nnodes : ℚ))) (fm, (fm.nnodes : ℚ))
    have hqmem' : q ∈ (fm :: rest).map fun f => (f, (f.nnodes : ℚ)) := by
      simpa using hqmem
    obtain ⟨f0, hf0mem, hf0⟩ := List.mem_map.1 hqmem'
    have hq1 : q.1 = f0 := by rw [← hf0]
    have hq2 : q.2 = (f0.nnodes : ℚ) := by rw [← hf0]
    have hf0l : f0 ∈ om.fixed_models ∧ matchesFixedNext curr model.nnodes f0 :=
      (hiff f0).1 hf0mem
    obtain ⟨v, hv, hvn, hv1, hv2⟩ := hf0l.2
    have hrun : omniNext om model = .ok (f0.toOResult v) := by
      rw [omniNext, hid]
      dsimp only
      rw [hcurr]
      dsimp only
      rw [hl]
      dsimp only
      rw [hqeq, hq1, hv]
      rfl
    refine ⟨?_, ?_, ?_⟩
    · constructor
      · intro h
        rw [hrun] at h
        exact Except.noConfusion h
      · rintro ⟨h1, _⟩
        exact absurd hf0l.2 (h1 f0 hf0l.1)
    · intro _
      refine ⟨f0, v, hrun, hf0l.1, hf0l.2, hv, ?_⟩
      intro fm' hfm' hm'
      have hmem2 : fm' ∈ fm :: rest := (hiff fm').2 ⟨hfm', hm'⟩
      have hle' : q.2 ≤ (fm'.nnodes : ℚ) :=
        hqmin (fm', (fm'.nnodes : ℚ))
          (by simpa using List.mem_map_of_mem (fun f => (f, (f.nnodes : ℚ))) hmem2)
      rw [hq2] at hle'
      exact_mod_cast hle'
    · intro h1 _
      exact absurd hf0l.2 (h1 f0 hf0l.1)
  | nil =>
    have hfixnone : ∀ fm ∈ om.fixed_models, ¬ matchesFixedNext curr model.nnodes fm := by
      intro fm hfm hm
      have h0 : fm ∈ ([] : List FixedModel) := (hiff fm).2 ⟨hfm, hm⟩
      cases h0
    by_cases hre : om.resizers.isEmpty = true
    · have hrz : om.resizers = [] := by
        cases hx : om.resizers with
        | nil => rfl
        | cons a as =>
          rw [hx] at hre
          simp [List.isEmpty] at hre
      have hrun : omniNext om model = .error .exhausted := by
        rw [omniNext, hid]
        dsimp only
        rw [hcurr]
        dsimp only
        rw [hl]
        dsimp only
        rw [if_pos hre]
      refine ⟨?_, ?_, ?_⟩
      · constructor
        · intro _
          refine ⟨hfixnone, ?_⟩
          intro rz hrzmem
          rw [hrz] at hrzmem
          cases hrzmem
        · intro _
          exact hrun
      · intro hex
        obtain ⟨fm0, hfm0, hm0⟩ := hex
        exact absurd hm0 (hfixnone fm0 hfm0)
      · intro _ hex
        obtain ⟨rz0, hrz0, _⟩ := hex
        rw [hrz] at hrz0
        cases hrz0
    · obtain ⟨lp, hlp, hlpiff, hlphits⟩ :=
        collectProbes_spec curr model.nnodes om.resizers 0 hpr
      cases lp with
      | nil =>
        have hrun : omniNext om model = .error .exhausted := by
          rw [omniNext, hid]
          dsimp only
          rw [hcurr]
          dsimp only
          rw [hl]
          dsimp only
          rw [if_neg hre, hlp]
        refine ⟨?_, ?_, ?_⟩
        · constructor
          · intro _
            exact ⟨hfixnone, hlpiff.1 rfl⟩
          · intro _
            exact hrun
        · intro hex
          obtain ⟨fm0, hfm0, hm0⟩ := hex
          exact absurd hm0 (hfixnone fm0 hfm0)
        · intro _ hex
          obtain ⟨rz0, hrz0, hq0⟩ := hex
          exact absurd hq0 (hlpiff.1 rfl rz0 hrz0)
      | cons c cs =>
        have hcons : ∀ m ∈ c :: cs, (sizeToFloat m.mem_per_node).isSome := by
          intro m hm
          obtain ⟨v, hv, _⟩ := hlphits m hm
          rw [hv]
          rfl
        obtain ⟨ds, hds, hdsmap, hdsall⟩ := computeNextDevs_spec curr (c :: cs) hcons
        cases ds with
        | nil => simp at hdsmap
        | cons d ds' =>
          obtain ⟨q, hqmem, hqeq, hqmin⟩ := minByKeyPaired_spec ds' d
          have hq1mem : q.1 ∈ c :: cs := by
            rw [← hdsmap]
            exact List.mem_map_of_mem Prod.fst hqmem
          obtain ⟨v, hv, hvn, hv1, hv2⟩ := hlphits q.1 hq1mem
          have hrun : omniNext om model = .ok (minByKeyPaired d ds') := by
            rw [omniNext, hid]
            dsimp only
            rw [hcurr]
            dsimp only
            rw [hl]
            dsimp only
            rw [if_neg hre, hlp]
            dsimp only
            rw [hds]
          have hdev_q : q.2 = 1 - v / curr := by
            obtain ⟨v0, hv0, he⟩ := hdsall q hqmem
            rw [hv] at hv0
            rw [he, (Option.some_inj.1 hv0).symm]
          refine ⟨?_, ?_, ?_⟩
          · constructor
            · intro h
              rw [hrun] at h
              exact Except.noConfusion h
            · rintro ⟨_, h2⟩
              have h3 := hlpiff.2 h2
              simp at h3
          · intro hex
            obtain ⟨fm0, hfm0, hm0⟩ := hex
            exact absurd hm0 (hfixnone fm0 hfm0)
          · intro _ _
            refine ⟨q.1, v, (c :: cs), ?_, hlp, hq1mem, hv, hvn, hv1, hv2, ?_⟩
            · rw [hrun, hqeq]
            · intro m' hm' v' hv'
              have hm'' : m' ∈ (d :: ds').map Prod.fst := by
                rw [hdsmap]
                exact hm'
              obtain ⟨p, hpmem, hpeq⟩ := List.mem_map.1 hm''
              obtain ⟨v0, hv0, hpe⟩ := hdsall p hpmem
              have hv0' : v0 = v' := by
                rw [hpeq] at hv0
                rw [hv'] at hv0
                exact (Option.some_inj.1 hv0).symm
              have hmin := hqmin p hpmem
              rw [hdev_q, hpe, hv0'] at hmin
              exact hmin

/-- Witness for `C6_next_exhausted`: a catalog whose one fixed model has
fewer nodes than the current result and which has no resizers is
exhausted. -/
theorem C6_next_exhausted_witness :
    omniNext ⟨[⟨2, "1G"⟩], []⟩ { nnodes := 4, mem_per_node := "1G" } =
      .error .exhausted := by
  refine (C6_next_exhausted ⟨[⟨2, "1G"⟩], []⟩ { nnodes := 4, mem_per_node := "1G" }
    (1024 ^ 3) rfl
    (sizeToFloat_eq_of_scan (p := ⟨1, 0, 0, 0, 'G'⟩) (by decide)
      (by simp +decide [partsVal, qpow10, unitValue]))
    (by decide) (by simp)).1.2 ⟨?_, by simp⟩
  intro fm hm
  have hfm : fm = ⟨2, "1G"⟩ := by simpa using hm
  rw [hfm]
  rintro ⟨v, hv, hlt, _⟩
  exact absurd hlt (by decide)

/-! ## `OmniModelResizer.resize` candidate-scoring lemmas -/

theorem computeDevs_assert (req : ℚ) (hreq : 0 < req) (n : ℕ) :
    ∀ l : List OResult,
      (∀ c ∈ l, (sizeToFloat c.mem_per_node).isSome) →
      (∃ c ∈ l, ∃ v, sizeToFloat c.mem_per_node = some v ∧ req < v) →
      computeDevs req n l = .error .assertionFailed := by
  intro l
  induction l with
  | nil =>
    intro _ hex
    obtain ⟨c, hc, _⟩ := hex
    cases hc
  | cons c cs ih =>
    intro hall hex
    obtain ⟨v, hv⟩ := Option.isSome_iff_exists.1 (hall c (by simp))
    by_cases hover : req < v
    · have hdev : deviation req n c = .error .assertionFailed := by
        rw [deviation, hv]
        dsimp only
        rw [if_pos (by
          have h1 : 1 < v / req := (one_lt_div hreq).2 hover
          linarith)]
      rw [computeDevs, hdev]
    · have hdev : deviation req n c = .ok (4 / 10 * (1 - v / req) +
          6 / 10 * (1 - |(c.nnodes : ℚ) - (n : ℚ)| / ((c.nnodes : ℚ) + (n : ℚ)))) := by
        rw [deviation, hv]
        dsimp only
        rw [if_neg (not_lt.2 (by
          have h1 : v / req ≤ 1 := (div_le_one hreq).2 (not_lt.1 hover)
          linarith))]
      have htail : ∃ c' ∈ cs, ∃ v', sizeToFloat c'.mem_per_node = some v' ∧ req < v' := by
        obtain ⟨c0, hc0, v0, hv0, hov0⟩ := hex
        rcases List.mem_cons.1 hc0 with rfl | h2
        · rw [hv, Option.some_inj] at hv0
          rw [hv0] at hover
          exact absurd hov0 hover
        · exact ⟨c0, h2, v0, hv0, hov0⟩
      rw [computeDevs, hdev]
      dsimp only
      rw [ih (fun c' h' => hall c' (by simp [h'])) htail]
      rfl

theorem computeDevs_ok (req : ℚ) (hreq : 0 < req) (n : ℕ) :
    ∀ l : List OResult,
      (∀ c ∈ l, ∃ v, sizeToFloat c.mem_per_node = some v ∧ v ≤ req) →
      ∃ ds, computeDevs req n l = .ok ds ∧ ds.map Prod.fst = l ∧
        ∀ p ∈ ds, deviation req n p.1 = .ok p.2 := by
  intro l
  induction l with
  | nil =>
    intro _
    exact ⟨[], rfl, rfl, by simp⟩
  | cons c cs ih =>
    intro hall
    obtain ⟨v, hv, hle⟩ := hall c (by simp)
    have hdev : deviation req n c = .ok (4 / 10 * (1 - v / req) +
        6 / 10 * (1 - |(c.nnodes : ℚ) - (n : ℚ)| / ((c.nnodes : ℚ) + (n : ℚ)))) := by
      rw [deviation, hv]
      dsimp only
      rw [if_neg (not_lt.2 (by
        have h1 : v / req ≤ 1 := (div_le_one hreq).2 hle
        linarith))]
    obtain ⟨ds, hds, hmap, hprops⟩ := ih (fun c' h' => hall c' (by simp [h']))
    refine ⟨(c, 4 / 10 * (1 - v / req) +
      6 / 10 * (1 - |(c.nnodes : ℚ) - (n : ℚ)| / ((c.nnodes : ℚ) + (n : ℚ)))) :: ds,
      ?_, ?_, ?_⟩
    · rw [computeDevs, hdev]
      dsimp only
      rw [hds]
      rfl
    · simp [hmap]
    · intro p hp
      rcases List.mem_cons.1 hp with h1 | h2
      · rw [h1]
        exact hdev
      · exact hprops p h2

/-- C10: when `OmniModelResizer.resize` finds no matching fixed model and
falls through to scoring the resizer candidates, the `assert s1 >= 0`
inside `deviation` makes any candidate exceeding the request abort the
call with an `AssertionError` (never a result, never the no-candidate
error); when every candidate undershoots, the assertion is unreachable
and the minimum-deviation candidate is returned. -/
theorem C10_candidate_overshoot_assert
    (om : OmniModelResizer) (req : ℚ) (n : ℕ) (hreq : 0 < req)
    (hnofix : collectFixedResize req n om.fixed_models = .ok [])
    (cands : List OResult)
    (hcands : collectResizerCands req n 0 om.resizers = .ok cands)
    (hparse : ∀ c ∈ cands, (sizeToFloat c.mem_per_node).isSome) :
    ((∃ c ∈ cands, ∃ v, sizeToFloat c.mem_per_node = some v ∧ req < v) →
      omniResize om req n = .error .assertionFailed) ∧
    ((∀ c ∈ cands, ∀ v, sizeToFloat c.mem_per_node = some v → v ≤ req) →
      cands ≠ [] →
      ∃ res ds, omniResize om req n = .ok res ∧
        computeDevs req n cands = .ok ds ∧ res ∈ cands ∧
        ∃ d, (res, d) ∈ ds ∧ deviation req n res = .ok d ∧
          ∀ p ∈ ds, d ≤ p.2) := by
  constructor
  · intro hex
    have hne : cands ≠ [] := by
      obtain ⟨c, hc, _⟩ := hex
      intro h
      rw [h] at hc
      cases hc
    obtain ⟨c, cs, hcc⟩ := List.exists_cons_of_ne_nil hne
    subst hcc
    rw [omniResize, hnofix]
    dsimp only
    rw [hcands]
    dsimp only
    rw [computeDevs_assert req hreq n (c :: cs) hparse hex]
  · intro hall hne
    obtain ⟨c, cs, hcc⟩ := List.exists_cons_of_ne_nil hne
    subst hcc
    have hall' : ∀ x ∈ c :: cs, ∃ v, sizeToFloat x.mem_per_node = some v ∧ v ≤ req := by
      intro x hx
      obtain ⟨v, hv⟩ := Option.isSome_iff_exists.1 (hparse x hx)
      exact ⟨v, hv, hall x hx v hv⟩
    obtain ⟨ds, hds, hmap, hprops⟩ := computeDevs_ok req hreq n (c :: cs) hall'
    cases ds with
    | nil => simp at hmap
    | cons d ds' =>
      obtain ⟨q, hqmem, hqeq, hqmin⟩ := minByKeyPaired_spec ds' d
      have hrun : omniResize om req n = .ok (minByKeyPaired d ds') := by
        rw [omniResize, hnofix]
        dsimp only
        rw [hcands]
        dsimp only
        rw [hds]
      have hq1mem : q.1 ∈ c :: cs := by
        rw [← hmap]
        exact List.mem_map_of_mem Prod.fst hqmem
      refine ⟨q.1, d :: ds', ?_, hds, hq1mem, q.2, ?_, hprops q hqmem, hqmin⟩
      · rw [hrun, hqeq]
      · simpa using hqmem

/-- Witness for `C10_candidate_overshoot_assert`: a catalog with no fixed
models and one unstructured resizer whose early-accept branch overshoots
the request (`resize("4.96G", 1)` on a `5G` model yields `5.0G`) aborts
with the assertion failure. -/
theorem C10_candidate_overshoot_assert_witness :
    omniResize ⟨[], [.unstructured 3 (5 * 1024 ^ 3)]⟩ (496 / 100 * 1024 ^ 3) 1 =
      .error .assertionFailed := by
  have hres : (Resizer.unstructured 3 (5 * 1024 ^ 3)).resize (496 / 100 * 1024 ^ 3) 1 =
      some { nnodes := 1, mem_per_node := "5.0G",
             mem_raw := 5 * 1024 ^ 3 / ((1 : ℕ) : ℚ), nrefines := some 0 } := by
    rw [uresize_early (Or.inl (by push_cast; norm_num [abs_lt]))]
    rw [floatToSize_big (by push_cast; norm_num) (m := 50) (by push_cast; norm_num)]
    simp +decide [OResult.mk.injEq]
  have hcands : collectResizerCands (496 / 100 * 1024 ^ 3) 1 0
      [Resizer.unstructured 3 (5 * 1024 ^ 3)] = .ok
      [{ nnodes := 1, mem_per_node := "5.0G", mem_raw := 5 * 1024 ^ 3 / ((1 : ℕ) : ℚ),
         nrefines := some 0, resizer_id_ := some 0 }] := by
    simp only [collectResizerCands, hres]
    rfl
  refine (C10_candidate_overshoot_assert ⟨[], [.unstructured 3 (5 * 1024 ^ 3)]⟩
    (496 / 100 * 1024 ^ 3) 1 (by norm_num) rfl _ hcands ?_).1 ?_
  · intro c hc
    rw [List.mem_singleton.1 hc]
    decide
  · refine ⟨_, List.mem_singleton.2 rfl, 5 * 1024 ^ 3, ?_, by norm_num⟩
    refine sizeToFloat_eq_of_scan (p := ⟨5, 0, 1, 0, 'G'⟩) (by decide) ?_
    simp +decide [partsVal, qpow10, unitValue]
